import Mathlib

/-!
Verification of the packed-tree genetic-programming core.

The C++ sources are modelled by a shallow embedding:

* `core::Tree<T>` stores its nodes in a `std::vector<NodeStorage>`; we model
  the vector as a `List NodeStorage` with `Nat` values (node values of
  `TreeGenome` are `unsigned`).
* stateful member functions become pure functions from the old node list to
  the new one; C++ `assert`s / undefined behaviour become `Option`/`Except`
  results where the statements need to distinguish them.
-/

set_option maxHeartbeats 1600000

namespace GP

/-- `Tree<T>::NodeStorage`: the stored value, the number of direct children
of this node, and the number of nodes of the subtree rooted at this node
(including the node itself). -/
structure NodeStorage where
  value : Nat
  childCount : Nat
  subTreeSize : Nat
deriving DecidableEq

instance : Inhabited NodeStorage := ⟨⟨0, 0, 1⟩⟩

/-- The node stored at index `i` (C++ `nodes[i]`; every verified statement
keeps `i` in range, so the default value is irrelevant). -/
def nodeAt (nodes : List NodeStorage) (i : Nat) : NodeStorage :=
  nodes.getD i default

/-- State of `Tree<T>::Builder`: the node array under construction together
with the stack of indices of the currently open (pushed, not yet popped)
nodes; the stack top is the head of the list. -/
structure BuilderState where
  nodes : List NodeStorage
  stack : List Nat
deriving DecidableEq

/-- `Tree<T>::addNode`: append a fresh node (`childCount = 0`,
`subTreeSize = 1`) at the end of the node array. -/
def addNode (nodes : List NodeStorage) (v : Nat) : List NodeStorage :=
  nodes ++ [⟨v, 0, 1⟩]

/-- `nodes[t].childCount++`. -/
def bumpChild (nodes : List NodeStorage) (t : Nat) : List NodeStorage :=
  nodes.set t { nodeAt nodes t with childCount := (nodeAt nodes t).childCount + 1 }

/-- `nodes[t].childCount++; nodes[t].subTreeSize++` (body of `Builder::add`
for a nonempty stack). -/
def bumpChildAndSize (nodes : List NodeStorage) (t : Nat) : List NodeStorage :=
  nodes.set t { nodeAt nodes t with
    childCount := (nodeAt nodes t).childCount + 1
    subTreeSize := (nodeAt nodes t).subTreeSize + 1 }

/-- `nodes[t].subTreeSize += s` (size propagation in `Builder::pop`). -/
def bumpSize (nodes : List NodeStorage) (t : Nat) (s : Nat) : List NodeStorage :=
  nodes.set t { nodeAt nodes t with subTreeSize := (nodeAt nodes t).subTreeSize + s }

/-- `Builder::push(value)`: increment the stack top's child count (if any),
append the new node and push its index. -/
def BuilderState.push (b : BuilderState) (v : Nat) : BuilderState :=
  match b.stack with
  | [] => { nodes := addNode b.nodes v, stack := b.nodes.length :: b.stack }
  | t :: _ =>
    let nodes := bumpChild b.nodes t
    { nodes := addNode nodes v, stack := nodes.length :: b.stack }

/-- `Builder::add(value)`: append the new node; if the stack is nonempty,
increment both the child count and the subtree size of the stack top. -/
def BuilderState.add (b : BuilderState) (v : Nat) : BuilderState :=
  let nodes := addNode b.nodes v
  match b.stack with
  | [] => { nodes := nodes, stack := b.stack }
  | t :: _ => { nodes := bumpChildAndSize nodes t, stack := b.stack }

/-- `Builder::pop()`: pop the open node and propagate its subtree size onto
the new stack top. The source asserts a nonempty stack; that case is never
reached in the statements below and is modelled as a no-op. -/
def BuilderState.pop (b : BuilderState) : BuilderState :=
  match b.stack with
  | [] => b
  | t :: rest =>
    match rest with
    | [] => { nodes := b.nodes, stack := rest }
    | p :: _ => { nodes := bumpSize b.nodes p (nodeAt b.nodes t).subTreeSize, stack := rest }

/-- `Tree<T>::getSubTree(i)`: the node slice `[i, i + nodes[i].subTreeSize)`. -/
def getSubTree (nodes : List NodeStorage) (i : Nat) : List NodeStorage :=
  (nodes.drop i).take (nodeAt nodes i).subTreeSize

mutual

/-- One recursive step of `Tree<T>::recomputeSubTreeSizes`, applied to the
suffix of the node array that starts at the enumerator's position: it
consumes one whole subtree, returns the rewritten subtree nodes, the
untouched remainder and the recomputed subtree size.  A node with
`childCount = 0` is returned unchanged (the C++ returns `1` without
writing).  The `fuel` argument bounds the recursion depth; the C++ code has
no fuel, and running out of it (or walking past the end of the array, which
is undefined behaviour in C++) yields `none`. -/
def recomputeGo : Nat → List NodeStorage → Option (List NodeStorage × List NodeStorage × Nat)
  | 0, _ => none
  | _ + 1, [] => none
  | fuel + 1, n :: rest =>
    if n.childCount = 0 then some ([n], rest, 1)
    else
      match recomputeChildren fuel n.childCount rest with
      | some (proc, rem, sz) =>
        some ({ n with subTreeSize := 1 + sz } :: proc, rem, 1 + sz)
      | none => none

/-- The `for` loop of `recomputeSubTreeSizes`: process `k` consecutive
subtrees, summing their sizes. -/
def recomputeChildren : Nat → Nat → List NodeStorage → Option (List NodeStorage × List NodeStorage × Nat)
  | _, 0, l => some ([], l, 0)
  | 0, _ + 1, _ => none
  | fuel + 1, k + 1, l =>
    match recomputeGo fuel l with
    | some (p₁, r₁, s₁) =>
      match recomputeChildren fuel k r₁ with
      | some (p₂, r₂, s₂) => some (p₁ ++ p₂, r₂, s₁ + s₂)
      | none => none
    | none => none

end

/-- `Tree<T>::replace(nodeId, subTree)`: erase the slice
`[i, i + nodes[i].subTreeSize)`, splice the replacement nodes in, then
recompute the subtree sizes by a preorder walk from the root.  The C++
asserts `i < nodes.size()`; a failing assertion (and an out-of-bounds
enumerator walk inside the recomputation) is modelled as `none`. -/
def replace (nodes : List NodeStorage) (i : Nat) (sub : List NodeStorage) :
    Option (List NodeStorage) :=
  if i < nodes.length then
    let spliced := nodes.take i ++ sub ++ nodes.drop (i + (nodeAt nodes i).subTreeSize)
    match recomputeGo (2 * spliced.length + 1) spliced with
    | some (proc, rem, _) => some (proc ++ rem)
    | none => none
  else none

/-- The builder sequence of the `testTreeIteration` fixture, run on an
empty tree. -/
def testBuild : BuilderState :=
  (((((((((((⟨[], []⟩ : BuilderState).push 2).add 11).push 42).add 13).add
    0).push 9).add 7).pop).pop).add 90).pop

/-- C3: the Builder sequence `push(2); add(11); push(42); add(13); add(0);
push(9); add(7); pop(); pop(); add(90); pop()` on an empty tree produces a
tree with node count 8, root child count 3, preorder value sequence
`[2, 11, 42, 13, 0, 9, 7, 90]`, subtree size 8 at index 0, subtree size 5
at the node holding 42 and subtree size 2 at the node holding 9. -/
theorem claim_C3 :
    testBuild.nodes.length = 8 ∧
    (nodeAt testBuild.nodes 0).childCount = 3 ∧
    testBuild.nodes.map NodeStorage.value = [2, 11, 42, 13, 0, 9, 7, 90] ∧
    (nodeAt testBuild.nodes 0).subTreeSize = 8 ∧
    (nodeAt testBuild.nodes 2).value = 42 ∧
    (nodeAt testBuild.nodes 2).subTreeSize = 5 ∧
    (nodeAt testBuild.nodes 5).value = 9 ∧
    (nodeAt testBuild.nodes 5).subTreeSize = 2 := by
  decide

mutual

/-- Rose trees; the specification device used to state well-formedness of
the packed preorder node array. -/
inductive RTree (α : Type) where
  | node : α → RForest α → RTree α
deriving DecidableEq

inductive RForest (α : Type) where
  | nil : RForest α
  | cons : RTree α → RForest α → RForest α
deriving DecidableEq

end

mutual

def sizeT {α : Type} : RTree α → Nat
  | .node _ cs => 1 + sizeF cs

def sizeF {α : Type} : RForest α → Nat
  | .nil => 0
  | .cons t ts => sizeT t + sizeF ts

end

def lengthF {α : Type} : RForest α → Nat
  | .nil => 0
  | .cons _ ts => lengthF ts + 1

mutual

/-- The packed preorder array of a rose tree, exactly as the Builder and
`replace` maintain it: node value, number of direct children, subtree
size, followed by the flattened children. -/
def flattenT : RTree Nat → List NodeStorage
  | .node v cs => ⟨v, lengthF cs, 1 + sizeF cs⟩ :: flattenF cs

def flattenF : RForest Nat → List NodeStorage
  | .nil => []
  | .cons t ts => flattenT t ++ flattenF ts

end

/-- A node array is well formed when it is the packed preorder layout of a
single rose tree: preorder layout, consistent child counts and subtree
sizes, and `subTreeSize[0] =` node count. -/
def WFTree (nodes : List NodeStorage) : Prop :=
  ∃ rt : RTree Nat, nodes = flattenT rt

mutual

/-- A node array has the shape of the rose tree `rt` when the values, the
child counts and the preorder layout match and every leaf entry stores
subtree size 1; entries of internal nodes may store stale subtree sizes.
This is the state of the node array after splicing but before
`recomputeSubTreeSizes`. -/
def ShapeT : RTree Nat → List NodeStorage → Prop
  | .node v cs, l => ∃ n tl, l = n :: tl ∧ n.value = v ∧
      n.childCount = lengthF cs ∧ (lengthF cs = 0 → n.subTreeSize = 1) ∧
      ShapeF cs tl

def ShapeF : RForest Nat → List NodeStorage → Prop
  | .nil, l => l = []
  | .cons t ts, l => ∃ l₁ l₂, l = l₁ ++ l₂ ∧ ShapeT t l₁ ∧ ShapeF ts l₂

end

theorem sizeT_pos {α : Type} (rt : RTree α) : 1 ≤ sizeT rt := by
  cases rt with
  | node v cs => simp [sizeT]

theorem lengthF_eq_zero {α : Type} {ts : RForest α} (h : lengthF ts = 0) :
    ts = .nil := by
  cases ts with
  | nil => rfl
  | cons t ts => simp [lengthF] at h

mutual

theorem flattenT_length : (rt : RTree Nat) → (flattenT rt).length = sizeT rt
  | .node v cs => by simp [flattenT, sizeT, flattenF_length cs]; omega

theorem flattenF_length : (ts : RForest Nat) → (flattenF ts).length = sizeF ts
  | .nil => by simp [flattenF, sizeF]
  | .cons t ts => by simp [flattenF, sizeF, flattenT_length t, flattenF_length ts]

end

mutual

theorem shapeT_flatten : (rt : RTree Nat) → ShapeT rt (flattenT rt)
  | .node v cs => ⟨_, _, rfl, rfl, rfl, fun h => by
      cases lengthF_eq_zero h; simp [sizeF], shapeF_flatten cs⟩

theorem shapeF_flatten : (ts : RForest Nat) → ShapeF ts (flattenF ts)
  | .nil => rfl
  | .cons t ts => ⟨_, _, rfl, shapeT_flatten t, shapeF_flatten ts⟩

end

mutual

theorem shapeT_spec : (rt : RTree Nat) → (l : List NodeStorage) → ShapeT rt l →
    l.length = sizeT rt ∧
    l.map NodeStorage.value = (flattenT rt).map NodeStorage.value ∧
    l.map NodeStorage.childCount = (flattenT rt).map NodeStorage.childCount
  | .node v cs, l, h => by
    obtain ⟨n, tl, rfl, hv, hcc, _, hsh⟩ := h
    obtain ⟨h₁, h₂, h₃⟩ := shapeF_spec cs tl hsh
    simp [flattenT, sizeT, h₁, h₂, h₃, hv, hcc]
    omega

theorem shapeF_spec : (ts : RForest Nat) → (l : List NodeStorage) → ShapeF ts l →
    l.length = sizeF ts ∧
    l.map NodeStorage.value = (flattenF ts).map NodeStorage.value ∧
    l.map NodeStorage.childCount = (flattenF ts).map NodeStorage.childCount
  | .nil, l, h => by subst h; simp [flattenF, sizeF]
  | .cons t ts, l, h => by
    obtain ⟨l₁, l₂, rfl, h₁, h₂⟩ := h
    obtain ⟨a₁, a₂, a₃⟩ := shapeT_spec t l₁ h₁
    obtain ⟨b₁, b₂, b₃⟩ := shapeF_spec ts l₂ h₂
    simp [flattenF, sizeF, a₁, a₂, a₃, b₁, b₂, b₃]

end

mutual

/-- Correctness of the preorder recomputation walk: on a node array with
the shape of `rt` it consumes exactly the nodes of `rt`, rewrites them to
the fully correct packed layout of `rt` and leaves the remainder alone. -/
theorem recomputeGo_shape : (rt : RTree Nat) → (l rest : List NodeStorage) →
    (fuel : Nat) → ShapeT rt l → 2 * sizeT rt ≤ fuel →
    recomputeGo fuel (l ++ rest) = some (flattenT rt, rest, sizeT rt)
  | .node v cs, l, rest, fuel, h, hf => by
    obtain ⟨n, tl, rfl, hv, hcc, hleaf, hsh⟩ := h
    obtain ⟨nv, ncc, nsz⟩ := n
    have hpos : 1 ≤ sizeT (RTree.node v cs) := sizeT_pos _
    match fuel with
    | 0 => omega
    | f + 1 =>
      simp only [List.cons_append, recomputeGo]
      simp only at hv hcc
      subst hv
      by_cases h0 : ncc = 0
      · subst h0
        have hnil : cs = .nil := lengthF_eq_zero hcc.symm
        subst hnil
        have htl : tl = [] := hsh
        subst htl
        have : nsz = 1 := hleaf rfl
        subst this
        simp [flattenT, flattenF, sizeT, sizeF, lengthF]
      · rw [if_neg h0, hcc]
        have hrec := recomputeChildren_shape cs tl rest f hsh (by
          simp [sizeT] at hf; omega)
        rw [hrec]
        simp [flattenT, sizeT, hcc]

theorem recomputeChildren_shape : (ts : RForest Nat) → (l rest : List NodeStorage) →
    (fuel : Nat) → ShapeF ts l → 2 * sizeF ts + 1 ≤ fuel →
    recomputeChildren fuel (lengthF ts) (l ++ rest) = some (flattenF ts, rest, sizeF ts)
  | .nil, l, rest, fuel, h, _ => by
    have : l = [] := h
    subst this
    simp [lengthF, recomputeChildren, flattenF, sizeF]
  | .cons t ts, l, rest, fuel, h, hf => by
    obtain ⟨l₁, l₂, rfl, h₁, h₂⟩ := h
    simp only [sizeF] at hf
    have hts : 1 ≤ sizeT t := sizeT_pos t
    match fuel with
    | 0 => omega
    | f + 1 =>
      have hg := recomputeGo_shape t l₁ (l₂ ++ rest) f h₁ (by omega)
      have hc := recomputeChildren_shape ts l₂ rest f h₂ (by omega)
      simp only [lengthF, recomputeChildren, List.append_assoc, hg, hc]
      simp [flattenF, sizeF]

end

theorem nodeAt_cons_succ (a : NodeStorage) (l : List NodeStorage) (j : Nat) :
    nodeAt (a :: l) (j + 1) = nodeAt l j := by
  simp [nodeAt]

theorem nodeAt_append_left {l₁ l₂ : List NodeStorage} {i : Nat} (h : i < l₁.length) :
    nodeAt (l₁ ++ l₂) i = nodeAt l₁ i :=
  List.getD_append _ _ _ _ h

theorem nodeAt_append_right {l₁ l₂ : List NodeStorage} {i : Nat} (h : l₁.length ≤ i) :
    nodeAt (l₁ ++ l₂) i = nodeAt l₂ (i - l₁.length) :=
  List.getD_append_right _ _ _ _ h

mutual

/-- Structure of the packed layout at an arbitrary valid index `i`: the
slice starting there is the packed layout of a subtree `st`, and splicing
any shape-correct node list over that slice leaves a node list that has the
shape of some rose tree (the original tree with the subtree at `i`
replaced). -/
theorem subtree_at_T : (rt : RTree Nat) → (i : Nat) → i < (flattenT rt).length →
    ∃ st : RTree Nat,
      (nodeAt (flattenT rt) i).subTreeSize = sizeT st ∧
      i + sizeT st ≤ (flattenT rt).length ∧
      ((flattenT rt).drop i).take (sizeT st) = flattenT st ∧
      ∀ (repl : List NodeStorage) (rrt : RTree Nat), ShapeT rrt repl →
        ∃ rt' : RTree Nat,
          ShapeT rt' ((flattenT rt).take i ++ repl ++ (flattenT rt).drop (i + sizeT st))
  | .node v cs, i, hi => by
    match i with
    | 0 =>
      refine ⟨.node v cs, ?_, ?_, ?_, ?_⟩
      · simp [flattenT, nodeAt, sizeT]
      · simp [flattenT_length]
      · simp [← flattenT_length]
      · intro repl rrt hrepl
        refine ⟨rrt, ?_⟩
        have hlen : (flattenT (RTree.node v cs)).drop (0 + sizeT (RTree.node v cs)) = [] := by
          rw [Nat.zero_add, ← flattenT_length, List.drop_length]
        rw [List.take_zero, hlen, List.nil_append, List.append_nil]
        exact hrepl
    | j + 1 =>
      have hj : j < (flattenF cs).length := by
        have := hi
        simp [flattenT] at this
        omega
      obtain ⟨st, hsz, hb, hslice, hrepl⟩ := subtree_at_F cs j hj
      refine ⟨st, ?_, ?_, ?_, ?_⟩
      · rw [show flattenT (RTree.node v cs) = ⟨v, lengthF cs, 1 + sizeF cs⟩ :: flattenF cs from rfl,
          nodeAt_cons_succ]
        exact hsz
      · simp [flattenT]
        omega
      · simpa [flattenT] using hslice
      · intro repl rrt hr
        obtain ⟨ts', hlen', hsh'⟩ := hrepl repl rrt hr
        refine ⟨.node v ts', ?_⟩
        refine ⟨⟨v, lengthF cs, 1 + sizeF cs⟩,
          (flattenF cs).take j ++ repl ++ (flattenF cs).drop (j + sizeT st), ?_, rfl, ?_, ?_, ?_⟩
        · simp [flattenT, List.take_cons]
          rw [show j + 1 + sizeT st = (j + sizeT st) + 1 by omega]
          simp [List.drop_succ_cons]
        · simp [hlen']
        · intro h0
          rw [hlen'] at h0
          have := lengthF_eq_zero h0
          subst this
          simp [flattenF] at hj
        · exact hsh'

theorem subtree_at_F : (ts : RForest Nat) → (i : Nat) → i < (flattenF ts).length →
    ∃ st : RTree Nat,
      (nodeAt (flattenF ts) i).subTreeSize = sizeT st ∧
      i + sizeT st ≤ (flattenF ts).length ∧
      ((flattenF ts).drop i).take (sizeT st) = flattenT st ∧
      ∀ (repl : List NodeStorage) (rrt : RTree Nat), ShapeT rrt repl →
        ∃ ts' : RForest Nat, lengthF ts' = lengthF ts ∧
          ShapeF ts' ((flattenF ts).take i ++ repl ++ (flattenF ts).drop (i + sizeT st))
  | .nil, i, hi => by simp [flattenF] at hi
  | .cons t ts, i, hi => by
    rw [show flattenF (RForest.cons t ts) = flattenT t ++ flattenF ts from rfl] at hi ⊢
    by_cases hc : i < (flattenT t).length
    · obtain ⟨st, hsz, hb, hslice, hrepl⟩ := subtree_at_T t i hc
      refine ⟨st, ?_, ?_, ?_, ?_⟩
      · rw [nodeAt_append_left hc]; exact hsz
      · simp; omega
      · rw [List.drop_append_eq_append_drop,
          show i - (flattenT t).length = 0 by omega, List.drop_zero,
          List.take_append_eq_append_take,
          show sizeT st - ((flattenT t).drop i).length = 0 by
            simp; omega,
          List.take_zero, List.append_nil]
        exact hslice
      · intro repl rrt hr
        obtain ⟨rt', hsh'⟩ := hrepl repl rrt hr
        refine ⟨.cons rt' ts, by simp [lengthF], ?_⟩
        refine ⟨(flattenT t).take i ++ repl ++ (flattenT t).drop (i + sizeT st),
          flattenF ts, ?_, hsh', shapeF_flatten ts⟩
        rw [List.take_append_eq_append_take, show i - (flattenT t).length = 0 by omega,
          List.take_zero, List.append_nil,
          List.drop_append_eq_append_drop, show i + sizeT st - (flattenT t).length = 0 by omega,
          List.drop_zero]
        simp
    · push_neg at hc
      have hj : i - (flattenT t).length < (flattenF ts).length := by
        simp at hi; omega
      obtain ⟨st, hsz, hb, hslice, hrepl⟩ := subtree_at_F ts (i - (flattenT t).length) hj
      refine ⟨st, ?_, ?_, ?_, ?_⟩
      · rw [nodeAt_append_right hc]; exact hsz
      · simp; omega
      · rw [List.drop_append_eq_append_drop,
          show (flattenT t).drop i = [] from List.drop_eq_nil_of_le hc,
          List.nil_append]
        exact hslice
      · intro repl rrt hr
        obtain ⟨ts', hlen', hsh'⟩ := hrepl repl rrt hr
        refine ⟨.cons t ts', by simp [lengthF, hlen'], ?_⟩
        refine ⟨flattenT t,
          (flattenF ts).take (i - (flattenT t).length) ++ repl ++
            (flattenF ts).drop (i - (flattenT t).length + sizeT st), ?_, shapeT_flatten t, hsh'⟩
        rw [List.take_append_eq_append_take,
          show (flattenT t).take i = flattenT t from List.take_of_length_le hc,
          List.drop_append_eq_append_drop,
          show (flattenT t).drop (i + sizeT st) = [] from
            List.drop_eq_nil_of_le (by omega),
          show i + sizeT st - (flattenT t).length = i - (flattenT t).length + sizeT st by omega,
          List.nil_append]
        simp

end

theorem take_drop_splice (l : List NodeStorage) (i k : Nat) :
    l.take i ++ ((l.drop i).take k ++ (l.drop i).drop k) = l := by
  rw [List.take_append_drop, List.take_append_drop]

/-- C1: for every well-formed tree and valid node index `i`, extracting
the subtree at `i` and replacing the subtree at `i` by it gives back
exactly the original node array (same values, child counts and subtree
sizes). -/
theorem claim_C1 (nodes : List NodeStorage) (i : Nat) (hwf : WFTree nodes)
    (hi : i < nodes.length) :
    replace nodes i (getSubTree nodes i) = some nodes := by
  obtain ⟨rt, rfl⟩ := hwf
  obtain ⟨st, hsz, hb, hslice, _⟩ := subtree_at_T rt i hi
  have hspl : (flattenT rt).take i ++ getSubTree (flattenT rt) i ++
      (flattenT rt).drop (i + (nodeAt (flattenT rt) i).subTreeSize) = flattenT rt := by
    rw [getSubTree, hsz,
      show (flattenT rt).drop (i + sizeT st) = ((flattenT rt).drop i).drop (sizeT st) by
        rw [List.drop_drop],
      List.append_assoc, take_drop_splice]
  rw [replace, if_pos hi, hspl]
  have hrec := recomputeGo_shape rt (flattenT rt) [] (2 * (flattenT rt).length + 1)
    (shapeT_flatten rt) (by rw [flattenT_length]; omega)
  rw [List.append_nil] at hrec
  simp [hrec]

/-- Concrete fixture for the C1 witness: the tree `(0 1 2)`. -/
def c1fixture : RTree Nat :=
  .node 0 (.cons (.node 1 .nil) (.cons (.node 2 .nil) .nil))

theorem claim_C1_witness :
    WFTree (flattenT c1fixture) ∧ 1 < (flattenT c1fixture).length ∧
    replace (flattenT c1fixture) 1 (getSubTree (flattenT c1fixture) 1) =
      some (flattenT c1fixture) :=
  ⟨⟨c1fixture, rfl⟩, by decide, claim_C1 (flattenT c1fixture) 1 ⟨c1fixture, rfl⟩ (by decide)⟩

theorem nodeAt_flattenT_zero (rt : RTree Nat) :
    (nodeAt (flattenT rt) 0).subTreeSize = sizeT rt := by
  cases rt with
  | node v cs => simp [flattenT, nodeAt, sizeT]

/-- The workhorse behind C2, C7 and C8: replacing the subtree at a valid
index of a well-formed tree by a well-formed tree succeeds and yields
exactly the recomputed splice `prefix ++ sub ++ suffix`; the result is
well formed again. -/
theorem replace_spec (rt srt : RTree Nat) (i : Nat) (hi : i < (flattenT rt).length) :
    ∃ rt' : RTree Nat,
      replace (flattenT rt) i (flattenT srt) = some (flattenT rt') ∧
      ShapeT rt' ((flattenT rt).take i ++ flattenT srt ++
        (flattenT rt).drop (i + (nodeAt (flattenT rt) i).subTreeSize)) := by
  obtain ⟨st, hsz, hb, hslice, hrepl⟩ := subtree_at_T rt i hi
  obtain ⟨rt', hsh⟩ := hrepl (flattenT srt) srt (shapeT_flatten srt)
  rw [hsz]
  refine ⟨rt', ?_, hsh⟩
  have hlen := (shapeT_spec rt' _ hsh).1
  have hrec := recomputeGo_shape rt' _ []
    (2 * ((flattenT rt).take i ++ flattenT srt ++ (flattenT rt).drop (i + sizeT st)).length + 1)
    hsh (by omega)
  rw [List.append_nil] at hrec
  rw [replace, if_pos hi, hsz]
  simp only [hrec]
  simp

/-- C2: replacing the subtree at a valid index `i` of a well-formed tree by
a well-formed (hence nonempty) tree `sub` yields the node array
`prefix [0, i) ++ sub ++ suffix [i + subtree_size[i], end)` up to the
recomputed subtree sizes: the value sequence and the child counts are
exactly those of the splice (so the child counts of all surviving nodes
are unchanged), and the root's recorded subtree size equals the new total
node count. -/
theorem claim_C2 (nodes sub : List NodeStorage) (i : Nat)
    (hwf : WFTree nodes) (hsub : WFTree sub) (hi : i < nodes.length) :
    ∃ res : List NodeStorage,
      replace nodes i sub = some res ∧
      res.map NodeStorage.value =
        (nodes.take i ++ sub ++
          nodes.drop (i + (nodeAt nodes i).subTreeSize)).map NodeStorage.value ∧
      res.map NodeStorage.childCount =
        (nodes.take i ++ sub ++
          nodes.drop (i + (nodeAt nodes i).subTreeSize)).map NodeStorage.childCount ∧
      (nodeAt res 0).subTreeSize = res.length ∧ WFTree res := by
  obtain ⟨rt, rfl⟩ := hwf
  obtain ⟨srt, rfl⟩ := hsub
  obtain ⟨rt', heq, hsh⟩ := replace_spec rt srt i hi
  obtain ⟨hlen, hval, hcc⟩ := shapeT_spec rt' _ hsh
  exact ⟨flattenT rt', heq, hval.symm, hcc.symm, by
    rw [nodeAt_flattenT_zero, flattenT_length], ⟨rt', rfl⟩⟩

/-- Concrete fixture for the C2 witness: the tree `(5 6 7)`. -/
def c2fixture : RTree Nat :=
  .node 5 (.cons (.node 6 .nil) (.cons (.node 7 .nil) .nil))

/-- Concrete replacement tree for the C2 witness: the tree `(8 9)`. -/
def c2sub : RTree Nat := .node 8 (.cons (.node 9 .nil) .nil)

theorem claim_C2_witness :
    WFTree (flattenT c2fixture) ∧ WFTree (flattenT c2sub) ∧
    2 < (flattenT c2fixture).length ∧
    ∃ res : List NodeStorage,
      replace (flattenT c2fixture) 2 (flattenT c2sub) = some res ∧
      res.map NodeStorage.value =
        ((flattenT c2fixture).take 2 ++ flattenT c2sub ++
          (flattenT c2fixture).drop
            (2 + (nodeAt (flattenT c2fixture) 2).subTreeSize)).map NodeStorage.value ∧
      res.map NodeStorage.childCount =
        ((flattenT c2fixture).take 2 ++ flattenT c2sub ++
          (flattenT c2fixture).drop
            (2 + (nodeAt (flattenT c2fixture) 2).subTreeSize)).map NodeStorage.childCount ∧
      (nodeAt res 0).subTreeSize = res.length ∧ WFTree res :=
  ⟨⟨c2fixture, rfl⟩, ⟨c2sub, rfl⟩, by decide,
    claim_C2 (flattenT c2fixture) (flattenT c2sub) 2 ⟨c2fixture, rfl⟩ ⟨c2sub, rfl⟩ (by decide)⟩

/-- `Population::selectRandomNodeWithType`: collect the indices of all
nodes of `genome` whose grammar type equals `t`, then pick one uniformly.
The grammar lookup `grammar[genome[i]].getType()` is abstracted into the
universally quantified type assignment `typeOf`, and the uniform draw into
the entropy value `e`. -/
def selectRandomNodeWithType (typeOf : Nat → Nat) (genome : List NodeStorage)
    (t : Nat) (e : Nat) : Nat × Bool :=
  let nodes := (List.range genome.length).filter
    (fun k => typeOf (nodeAt genome k).value == t)
  if nodes.isEmpty then (0, false)
  else (nodes.getD (e % nodes.length) 0, true)

/-- `Population::crossover(genome, i, type, other)`: pick a node of `other`
with the given type; on failure return `false` with both trees untouched;
on success swap the subtree of `genome` at `i` with the subtree of `other`
at the picked node (both subtrees are extracted before either replacement).
A failing `replace` assertion is modelled as `none`. -/
def crossoverG (typeOf : Nat → Nat) (genome : List NodeStorage) (i : Nat) (t : Nat)
    (other : List NodeStorage) (e : Nat) :
    Option (Bool × List NodeStorage × List NodeStorage) :=
  let sel := selectRandomNodeWithType typeOf other t e
  if sel.2 = false then some (false, genome, other)
  else
    let j := sel.1
    let x := getSubTree genome i
    let y := getSubTree other j
    match replace genome i y, replace other j x with
    | some g', some o' => some (true, g', o')
    | _, _ => none

/-- C8: with `t` the type of `A`'s node at `i`: if `B` has no node of type
`t` the crossover returns `false` and leaves both trees exactly unchanged;
if `B` has such a node the crossover returns `true`, picks a node `j` of
type `t` in `B`, replaces `A`'s subtree at `i` by `B`'s subtree at `j`
and `B`'s subtree at `j` by `A`'s original subtree at `i` (splice
characterised as in C2, with recomputed subtree sizes; both results are
again well formed). -/
theorem claim_C8 (typeOf : Nat → Nat) (A B : List NodeStorage) (i e : Nat)
    (hwa : WFTree A) (hwb : WFTree B) (hi : i < A.length) :
    ((∀ k, k < B.length → typeOf (nodeAt B k).value ≠ typeOf (nodeAt A i).value) →
      crossoverG typeOf A i (typeOf (nodeAt A i).value) B e = some (false, A, B)) ∧
    ((∃ k, k < B.length ∧ typeOf (nodeAt B k).value = typeOf (nodeAt A i).value) →
      ∃ j g' o', j < B.length ∧
        typeOf (nodeAt B j).value = typeOf (nodeAt A i).value ∧
        crossoverG typeOf A i (typeOf (nodeAt A i).value) B e = some (true, g', o') ∧
        g'.map NodeStorage.value = (A.take i ++ getSubTree B j ++
          A.drop (i + (nodeAt A i).subTreeSize)).map NodeStorage.value ∧
        g'.map NodeStorage.childCount = (A.take i ++ getSubTree B j ++
          A.drop (i + (nodeAt A i).subTreeSize)).map NodeStorage.childCount ∧
        WFTree g' ∧
        o'.map NodeStorage.value = (B.take j ++ getSubTree A i ++
          B.drop (j + (nodeAt B j).subTreeSize)).map NodeStorage.value ∧
        o'.map NodeStorage.childCount = (B.take j ++ getSubTree A i ++
          B.drop (j + (nodeAt B j).subTreeSize)).map NodeStorage.childCount ∧
        WFTree o') := by
  constructor
  · intro hnone
    have hfil : (List.range B.length).filter
        (fun k => typeOf (nodeAt B k).value == typeOf (nodeAt A i).value) = [] := by
      rw [List.filter_eq_nil_iff]
      intro k hk
      simp only [beq_iff_eq]
      exact hnone k (List.mem_range.mp hk)
    rw [crossoverG, selectRandomNodeWithType]
    simp [hfil]
  · intro ⟨k, hk, hkt⟩
    set nds := (List.range B.length).filter
      (fun k => typeOf (nodeAt B k).value == typeOf (nodeAt A i).value) with hnds
    have hne : nds ≠ [] := by
      intro h0
      rw [List.filter_eq_nil_iff] at h0
      exact h0 k (List.mem_range.mpr hk) (by simp [hkt])
    have hlen : 0 < nds.length := List.length_pos.mpr hne
    have hjm : nds.getD (e % nds.length) 0 ∈ nds := by
      rw [List.getD_eq_getElem _ _ (Nat.mod_lt _ hlen)]
      exact List.getElem_mem _
    set j := nds.getD (e % nds.length) 0 with hjdef
    obtain ⟨hjr, hjt⟩ := List.mem_filter.mp hjm
    have hj : j < B.length := List.mem_range.mp hjr
    have hjt' : typeOf (nodeAt B j).value = typeOf (nodeAt A i).value := by
      simpa using hjt
    obtain ⟨a, rfl⟩ := hwa
    obtain ⟨b, rfl⟩ := hwb
    obtain ⟨stA, hszA, _, hsliceA, _⟩ := subtree_at_T a i hi
    obtain ⟨stB, hszB, _, hsliceB, _⟩ := subtree_at_T b j hj
    have hxa : getSubTree (flattenT a) i = flattenT stA := by
      rw [getSubTree, hszA, hsliceA]
    have hxb : getSubTree (flattenT b) j = flattenT stB := by
      rw [getSubTree, hszB, hsliceB]
    obtain ⟨a', heqa, hsha⟩ := replace_spec a stB i hi
    obtain ⟨b', heqb, hshb⟩ := replace_spec b stA j hj
    obtain ⟨_, hva, hca⟩ := shapeT_spec a' _ hsha
    obtain ⟨_, hvb, hcb⟩ := shapeT_spec b' _ hshb
    refine ⟨j, flattenT a', flattenT b', hj, hjt', ?_, ?_, ?_, ⟨a', rfl⟩, ?_, ?_, ⟨b', rfl⟩⟩
    · have hsel : selectRandomNodeWithType typeOf (flattenT b)
          (typeOf (nodeAt (flattenT a) i).value) e = (j, true) := by
        rw [selectRandomNodeWithType]
        simp only [← hnds]
        rw [if_neg (by simpa [List.isEmpty_iff] using hne), ← hjdef]
      rw [crossoverG]
      simp only [hsel]
      rw [if_neg (by simp)]
      simp only [hxa, hxb, heqa, heqb]
    · rw [hxb, hva]
    · rw [hxb, hca]
    · rw [hxa, hvb]
    · rw [hxa, hcb]

/-- Type assignment for the C8 witness: parity of the node value. -/
def c8typeOf : Nat → Nat := fun v => v % 2

/-- First parent for the C8 witness: the tree `(0 1)`. -/
def c8A : RTree Nat := .node 0 (.cons (.node 1 .nil) .nil)

/-- Second parent for the C8 witness: the tree `(2 3)`. -/
def c8B : RTree Nat := .node 2 (.cons (.node 3 .nil) .nil)

theorem claim_C8_witness :
    WFTree (flattenT c8A) ∧ WFTree (flattenT c8B) ∧ 1 < (flattenT c8A).length ∧
    (((∀ k, k < (flattenT c8B).length →
        c8typeOf (nodeAt (flattenT c8B) k).value ≠
          c8typeOf (nodeAt (flattenT c8A) 1).value) →
      crossoverG c8typeOf (flattenT c8A) 1 (c8typeOf (nodeAt (flattenT c8A) 1).value)
        (flattenT c8B) 0 = some (false, flattenT c8A, flattenT c8B)) ∧
    ((∃ k, k < (flattenT c8B).length ∧
        c8typeOf (nodeAt (flattenT c8B) k).value =
          c8typeOf (nodeAt (flattenT c8A) 1).value) →
      ∃ j g' o', j < (flattenT c8B).length ∧
        c8typeOf (nodeAt (flattenT c8B) j).value =
          c8typeOf (nodeAt (flattenT c8A) 1).value ∧
        crossoverG c8typeOf (flattenT c8A) 1 (c8typeOf (nodeAt (flattenT c8A) 1).value)
          (flattenT c8B) 0 = some (true, g', o') ∧
        g'.map NodeStorage.value = ((flattenT c8A).take 1 ++ getSubTree (flattenT c8B) j ++
          (flattenT c8A).drop (1 + (nodeAt (flattenT c8A) 1).subTreeSize)).map NodeStorage.value ∧
        g'.map NodeStorage.childCount = ((flattenT c8A).take 1 ++ getSubTree (flattenT c8B) j ++
          (flattenT c8A).drop (1 + (nodeAt (flattenT c8A) 1).subTreeSize)).map NodeStorage.childCount ∧
        WFTree g' ∧
        o'.map NodeStorage.value = ((flattenT c8B).take j ++ getSubTree (flattenT c8A) 1 ++
          (flattenT c8B).drop (j + (nodeAt (flattenT c8B) j).subTreeSize)).map NodeStorage.value ∧
        o'.map NodeStorage.childCount = ((flattenT c8B).take j ++ getSubTree (flattenT c8A) 1 ++
          (flattenT c8B).drop (j + (nodeAt (flattenT c8B) j).subTreeSize)).map NodeStorage.childCount ∧
        WFTree o')) :=
  ⟨⟨c8A, rfl⟩, ⟨c8B, rfl⟩, by decide,
    claim_C8 c8typeOf (flattenT c8A) (flattenT c8B) 1 0 ⟨c8A, rfl⟩ ⟨c8B, rfl⟩ (by decide)⟩

/-- The state of `Population` touched by the verified operations.  Fitness
values are delegate-supplied floats used by the core only in comparisons;
they are modelled as rationals. -/
structure PopState where
  individuals : List (List NodeStorage)
  fitnesses : List Rat
  currentBestIndividualId : Nat
  evaluatedGeneration : Int
  generation : Int
deriving DecidableEq

/-- The argmax scan of `Population::evaluateGeneration`: start from
index 0 with `fitnesses[0]`, move only on a strictly greater fitness. -/
def bestScan (fits : List Rat) (n : Nat) : Nat × Rat :=
  (List.range n).foldl
    (fun b i => if b.2 < fits.getD i 0 then (i, fits.getD i 0) else b)
    (0, fits.getD 0 0)

/-- `Population::evaluateGeneration`: if the current generation was already
evaluated, return the cached best index; otherwise call the delegate's
`computeFitness` (the abstract function `f`), cache the fitnesses, the
argmax and the generation number.  The returned Bool records whether the
delegate was invoked. -/
def evaluateGeneration (f : List (List NodeStorage) → List Rat) (s : PopState) :
    PopState × Nat × Bool :=
  if s.evaluatedGeneration = s.generation then (s, s.currentBestIndividualId, false)
  else
    let fits := f s.individuals
    let best := (bestScan fits s.individuals.length).1
    ({ s with
        fitnesses := fits
        currentBestIndividualId := best
        evaluatedGeneration := s.generation }, best, true)

/-- C9: while the generation counter is unchanged, `evaluateGeneration`
invokes the delegate's `computeFitness` at most once: any call after the
first returns the cached best index of the first call, does not invoke the
delegate, and leaves the whole population state (fitness array included)
unchanged. -/
theorem claim_C9 (f : List (List NodeStorage) → List Rat) (s : PopState) :
    evaluateGeneration f (evaluateGeneration f s).1 =
      ((evaluateGeneration f s).1, (evaluateGeneration f s).2.1, false) := by
  by_cases h : s.evaluatedGeneration = s.generation
  · simp [evaluateGeneration, h]
  · simp [evaluateGeneration, h]

/-- `size_t` subtraction `a - b` with wrap-around modulo `2^64`, as in the
expression `individuals.size() - 3` of `Population::nextGeneration`. -/
def sizeTSub (a b : Nat) : Nat := (2 ^ 64 + a - b) % 2 ^ 64

/-- The assertion at the head of `Population::select`:
`count != 0 && count <= individuals.size()`. -/
def selectAssertOK (count n : Nat) : Prop := count ≠ 0 ∧ count ≤ n

instance (count n : Nat) : Decidable (selectAssertOK count n) := by
  unfold selectAssertOK; infer_instance

/-- C10: `nextGeneration` passes `count = N - 3` (computed in `size_t`)
to `select`, whose assertion demands `count ≠ 0 ∧ count ≤ N`.  For `N = 3`
the count is 0, for `N = 1, 2` it wraps around to a value exceeding `N`,
so the assertion fails for every `N < 4` (including `N = 0`), and it holds
for every `N ≥ 4`. -/
theorem claim_C10 (N : Nat) (h : N < 2 ^ 64) :
    selectAssertOK (sizeTSub N 3) N ↔ 4 ≤ N := by
  unfold selectAssertOK sizeTSub
  omega

theorem claim_C10_witness :
    (5 < 2 ^ 64 ∧ (selectAssertOK (sizeTSub 5 3) 5 ↔ 4 ≤ 5)) ∧
    (3 < 2 ^ 64 ∧ (selectAssertOK (sizeTSub 3 3) 3 ↔ 4 ≤ 3)) :=
  ⟨⟨by norm_num, claim_C10 5 (by norm_num)⟩, ⟨by norm_num, claim_C10 3 (by norm_num)⟩⟩

/-- The two tree-generation strategies of `TreeGenerator`. -/
inductive Strategy where
  | full
  | grow
deriving DecidableEq

/-- One emission loop of `RampedHalfAndHalfInitializer::initialize`
(`for (; i < bound; ++i, depth += depthDelta) { ...; consumer(genome); }`):
each iteration builds one genome with the given strategy (through the
delegate when present, otherwise through the generator) and hands it to
the consumer.  The float depth ramp influences only the generated tree's
target depth, never the iteration count, and is not modelled. -/
def emitLoop (i bound : Nat) (strat : Strategy) : List Strategy :=
  if i < bound then strat :: emitLoop (i + 1) bound strat else []
termination_by bound - i

/-- `RampedHalfAndHalfInitializer::initialize`: the sequence of consumer
invocations, each tagged with the strategy used for its genome: first the
loop up to `size/2` with Full, then the loop up to `size` with Grow. -/
def rampedInit (populationSize : Nat) : List Strategy :=
  emitLoop 0 (populationSize / 2) .full ++
    emitLoop (populationSize / 2) populationSize .grow

theorem emitLoop_eq (i bound : Nat) (s : Strategy) :
    emitLoop i bound s = List.replicate (bound - i) s := by
  rw [emitLoop]
  split
  · rw [emitLoop_eq (i + 1) bound s,
      show bound - i = (bound - (i + 1)) + 1 by omega, List.replicate_succ]
  · rw [show bound - i = 0 by omega, List.replicate_zero]
termination_by bound - i

/-- C6: for a population size `N ≥ 2` the initializer invokes the consumer
exactly `N` times; the first `⌊N/2⌋` genomes are built with the Full
strategy (delegate or generator) and the remaining `N - ⌊N/2⌋` with the
Grow strategy. -/
theorem claim_C6 (N : Nat) (h : 2 ≤ N) :
    (rampedInit N).length = N ∧
    (rampedInit N).take (N / 2) = List.replicate (N / 2) Strategy.full ∧
    (rampedInit N).drop (N / 2) = List.replicate (N - N / 2) Strategy.grow := by
  unfold rampedInit
  rw [emitLoop_eq, emitLoop_eq, Nat.sub_zero]
  refine ⟨?_, ?_, ?_⟩
  · simp
    omega
  · rw [List.take_left' (by simp)]
  · rw [List.drop_left' (by simp)]

theorem claim_C6_witness :
    2 ≤ 5 ∧ (rampedInit 5).length = 5 ∧
    (rampedInit 5).take (5 / 2) = List.replicate (5 / 2) Strategy.full ∧
    (rampedInit 5).drop (5 / 2) = List.replicate (5 - 5 / 2) Strategy.grow :=
  ⟨by norm_num, claim_C6 5 (by norm_num)⟩

/-- Totality of `Population::crossover` on well-formed inputs: it returns
(either outcome), and both resulting genomes are again well formed. -/
theorem crossoverG_total (typeOf : Nat → Nat) (g other : List NodeStorage) (i t e : Nat)
    (hwg : WFTree g) (hwo : WFTree other) (hi : i < g.length) :
    ∃ ok g' o', crossoverG typeOf g i t other e = some (ok, g', o') ∧
      WFTree g' ∧ WFTree o' := by
  by_cases hemp : (List.range other.length).filter
      (fun k => typeOf (nodeAt other k).value == t) = []
  · refine ⟨false, g, other, ?_, hwg, hwo⟩
    rw [crossoverG, selectRandomNodeWithType]
    simp [hemp]
  · set nds := (List.range other.length).filter
      (fun k => typeOf (nodeAt other k).value == t) with hnds
    have hlen : 0 < nds.length := List.length_pos.mpr hemp
    have hjm : nds.getD (e % nds.length) 0 ∈ nds := by
      rw [List.getD_eq_getElem _ _ (Nat.mod_lt _ hlen)]
      exact List.getElem_mem _
    set j := nds.getD (e % nds.length) 0 with hjdef
    have hj : j < other.length := List.mem_range.mp (List.mem_filter.mp hjm).1
    obtain ⟨a, rfl⟩ := hwg
    obtain ⟨b, rfl⟩ := hwo
    obtain ⟨stA, hszA, _, hsliceA, _⟩ := subtree_at_T a i hi
    obtain ⟨stB, hszB, _, hsliceB, _⟩ := subtree_at_T b j hj
    have hxa : getSubTree (flattenT a) i = flattenT stA := by
      rw [getSubTree, hszA, hsliceA]
    have hxb : getSubTree (flattenT b) j = flattenT stB := by
      rw [getSubTree, hszB, hsliceB]
    obtain ⟨a', heqa, _⟩ := replace_spec a stB i hi
    obtain ⟨b', heqb, _⟩ := replace_spec b stA j hj
    refine ⟨true, flattenT a', flattenT b', ?_, ⟨a', rfl⟩, ⟨b', rfl⟩⟩
    have hsel : selectRandomNodeWithType typeOf (flattenT b) t e = (j, true) := by
      rw [selectRandomNodeWithType]
      simp only [← hnds]
      rw [if_neg (by simpa [List.isEmpty_iff] using hemp), ← hjdef]
    rw [crossoverG]
    simp only [hsel]
    rw [if_neg (by simp)]
    simp only [hxa, hxb, heqa, heqb]

/-- The body of one tournament round: start from `s0`, move to `s1` and
then to `s2` only on strictly greater fitness. -/
def tournamentPick (fits : List Rat) (s0 s1 s2 : Nat) : Nat :=
  let p1 := if fits.getD s0 0 < fits.getD s1 0 then s1 else s0
  if fits.getD p1 0 < fits.getD s2 0 then s2 else p1

theorem tournamentPick_cases (fits : List Rat) (s0 s1 s2 : Nat) :
    tournamentPick fits s0 s1 s2 = s0 ∨ tournamentPick fits s0 s1 s2 = s1 ∨
      tournamentPick fits s0 s1 s2 = s2 := by
  rw [tournamentPick]
  split <;> split <;> simp

/-- `Population::select`: `count` rounds of 3-tournament selection.  Each
round draws three indices (`uniform_int_distribution(0, size-1)`, modelled
by entropy values reduced modulo the population size), keeps the first
index of strictly maximal fitness among the three (`fitnesses[s[j]] >
maxFitness`) and clones that individual into the new generation.  Returns
the clones in order together with the advanced entropy counter. -/
def selectRounds (inds : List (List NodeStorage)) (fits : List Rat) (ent : Nat → Nat) :
    Nat → Nat → List (List NodeStorage) × Nat
  | 0, c => ([], c)
  | count + 1, c =>
    let n := inds.length
    let p := tournamentPick fits (ent c % n) (ent (c + 1) % n) (ent (c + 2) % n)
    let rest := selectRounds inds fits ent count (c + 3)
    (inds.getD p [] :: rest.1, rest.2)

theorem selectRounds_spec (inds : List (List NodeStorage)) (fits : List Rat)
    (ent : Nat → Nat) (hn : 0 < inds.length) :
    ∀ count c, (selectRounds inds fits ent count c).1.length = count ∧
      ∀ g ∈ (selectRounds inds fits ent count c).1, g ∈ inds
  | 0, c => by simp [selectRounds]
  | count + 1, c => by
    obtain ⟨ih1, ih2⟩ := selectRounds_spec inds fits ent hn count (c + 3)
    rw [selectRounds]
    constructor
    · simp [ih1]
    · intro g hg
      simp only [List.mem_cons] at hg
      rcases hg with h | h
      · have hp : tournamentPick fits (ent c % inds.length) (ent (c + 1) % inds.length)
            (ent (c + 2) % inds.length) < inds.length := by
          rcases tournamentPick_cases fits (ent c % inds.length) (ent (c + 1) % inds.length)
            (ent (c + 2) % inds.length) with h' | h' | h' <;>
            (rw [h']; exact Nat.mod_lt _ hn)
        rw [h, List.getD_eq_getElem _ _ hp]
        exact List.getElem_mem _
      · exact ih2 g h

/-- The outcome of one draw of `p ∈ [0,1)` against
`mutationRate` / `mutationRate + crossoverRate`. -/
inductive VChoice where
  | mutateOp
  | crossoverOp
  | reproduceOp
deriving DecidableEq

/-- The variation pass of `Population::nextGeneration` (the `for` loop
over the freshly selected generation).  The float draw of `p` against the
mutation and crossover rates is modelled by the oracle `vchoice` (indexed
by a draw counter), index draws by the entropy stream `ent`, and the
delegate's `generateRandomTreeOfType` by the oracle `mkTree` (indexed by a
counter and the requested type).  Mutation replaces the subtree at a
random node of `xs[i]` by a delegate tree; crossover exchanges subtrees
between `xs[i]` and a partner `xs[next]` and skips one extra index, also
when it fails with a type mismatch (the C++ only logs then).  `fuel`
bounds the iteration count (the loop advances `i` every round, so
`xs.length` iterations always suffice); a failing `replace` assertion is
modelled as `none`.  The `i - 1` partner fallback underflows in C++ when
`i = 0` and `xs.length = 1`; that state is unreachable for the population
sizes admitted by `select`, and `Nat` subtraction stands in for it. -/
def variationLoop (typeOf : Nat → Nat) (vchoice : Nat → VChoice)
    (mkTree : Nat → Nat → List NodeStorage) (ent : Nat → Nat) :
    Nat → Nat → List (List NodeStorage) → Nat →
    Option (List (List NodeStorage) × Nat)
  | 0, i, xs, c => if i < xs.length then none else some (xs, c)
  | fuel + 1, i, xs, c =>
    if i < xs.length then
      match vchoice c with
      | .mutateOp =>
        let g := xs.getD i []
        let nodeId := ent (c + 1) % g.length
        let sub := mkTree (c + 2) (typeOf (nodeAt g nodeId).value)
        match replace g nodeId sub with
        | some g' => variationLoop typeOf vchoice mkTree ent fuel (i + 1) (xs.set i g') (c + 3)
        | none => none
      | .crossoverOp =>
        let next0 := if i + 1 ≠ xs.length then i + 1 else ent (c + 1) % xs.length
        let next := if next0 = i then i - 1 else next0
        let g := xs.getD i []
        let gi := ent (c + 2) % g.length
        match crossoverG typeOf g gi (typeOf (nodeAt g gi).value) (xs.getD next []) (ent (c + 3)) with
        | some (true, g', o') =>
          variationLoop typeOf vchoice mkTree ent fuel (i + 2) ((xs.set i g').set next o') (c + 4)
        | some (false, _, _) => variationLoop typeOf vchoice mkTree ent fuel (i + 2) xs (c + 4)
        | none => none
      | .reproduceOp => variationLoop typeOf vchoice mkTree ent fuel (i + 1) xs (c + 1)
    else some (xs, c)

theorem getD_mem {xs : List (List NodeStorage)} {i : Nat} (h : i < xs.length) :
    xs.getD i [] ∈ xs := by
  rw [List.getD_eq_getElem _ _ h]
  exact List.getElem_mem _

theorem WFTree_length_pos {g : List NodeStorage} (h : WFTree g) : 0 < g.length := by
  obtain ⟨rt, rfl⟩ := h
  rw [flattenT_length]
  exact sizeT_pos rt

theorem replace_total (g sub : List NodeStorage) (k : Nat) (hg : WFTree g)
    (hsub : WFTree sub) (hk : k < g.length) :
    ∃ g', replace g k sub = some g' ∧ WFTree g' := by
  obtain ⟨rt, rfl⟩ := hg
  obtain ⟨srt, rfl⟩ := hsub
  obtain ⟨rt', heq, _⟩ := replace_spec rt srt k hk
  exact ⟨flattenT rt', heq, rt', rfl⟩

/-- The variation pass never fails on a population of well-formed genomes
(with a delegate that only produces well-formed trees), preserves the
population size, and keeps every genome well formed. -/
theorem variationLoop_spec (typeOf : Nat → Nat) (vchoice : Nat → VChoice)
    (mkTree : Nat → Nat → List NodeStorage) (ent : Nat → Nat)
    (hmk : ∀ c t, WFTree (mkTree c t)) :
    ∀ fuel i (xs : List (List NodeStorage)) c, (∀ g ∈ xs, WFTree g) →
      xs.length ≤ fuel + i →
    ∃ xs' c', variationLoop typeOf vchoice mkTree ent fuel i xs c = some (xs', c') ∧
      xs'.length = xs.length ∧ ∀ g ∈ xs', WFTree g
  | 0, i, xs, c, hwf, hb => by
    rw [variationLoop, if_neg (by omega)]
    exact ⟨xs, c, rfl, rfl, hwf⟩
  | fuel + 1, i, xs, c, hwf, hb => by
    rw [variationLoop]
    by_cases hi : i < xs.length
    case neg =>
      rw [if_neg hi]
      exact ⟨xs, c, rfl, rfl, hwf⟩
    case pos =>
      rw [if_pos hi]
      have hgwf : WFTree (xs.getD i []) := hwf _ (getD_mem hi)
      have hglen : 0 < (xs.getD i []).length := WFTree_length_pos hgwf
      cases hv : vchoice c with
      | mutateOp =>
        obtain ⟨g', heq, hwfg'⟩ := replace_total (xs.getD i [])
          (mkTree (c + 2) (typeOf (nodeAt (xs.getD i [])
            (ent (c + 1) % (xs.getD i []).length)).value))
          (ent (c + 1) % (xs.getD i []).length) hgwf (hmk _ _) (Nat.mod_lt _ hglen)
        simp only [hv]
        simp only [heq]
        have hwf₂ : ∀ g ∈ xs.set i g', WFTree g := by
          intro g hg
          rcases List.mem_or_eq_of_mem_set hg with hm | rfl
          · exact hwf _ hm
          · exact hwfg'
        obtain ⟨xs', c', hrec, hlen', hwf'⟩ := variationLoop_spec typeOf vchoice mkTree ent
          hmk fuel (i + 1) (xs.set i g') (c + 3) hwf₂ (by rw [List.length_set]; omega)
        exact ⟨xs', c', hrec, by rw [hlen', List.length_set], hwf'⟩
      | crossoverOp =>
        simp only [hv]
        set nxt0 := if i + 1 ≠ xs.length then i + 1 else ent (c + 1) % xs.length with hn0
        set nxt := if nxt0 = i then i - 1 else nxt0 with hnx
        have hA : nxt0 < xs.length := by
          rw [hn0]
          split
          · omega
          · exact Nat.mod_lt _ (by omega)
        have hnxt_lt : nxt < xs.length := by
          rw [hnx]
          split
          · omega
          · exact hA
        have howf : WFTree (xs.getD nxt []) := hwf _ (getD_mem hnxt_lt)
        obtain ⟨ok, g', o', heq, hwg', hwo'⟩ := crossoverG_total typeOf (xs.getD i [])
          (xs.getD nxt []) (ent (c + 2) % (xs.getD i []).length)
          (typeOf (nodeAt (xs.getD i []) (ent (c + 2) % (xs.getD i []).length)).value)
          (ent (c + 3)) hgwf howf (Nat.mod_lt _ hglen)
        cases ok with
        | false =>
          simp only [heq]
          obtain ⟨xs', c', hrec, hlen', hwf'⟩ := variationLoop_spec typeOf vchoice mkTree ent
            hmk fuel (i + 2) xs (c + 4) hwf (by omega)
          exact ⟨xs', c', hrec, hlen', hwf'⟩
        | true =>
          simp only [heq]
          have hwf₂ : ∀ g ∈ (xs.set i g').set nxt o', WFTree g := by
            intro g hg
            rcases List.mem_or_eq_of_mem_set hg with hm | rfl
            · rcases List.mem_or_eq_of_mem_set hm with hm' | rfl
              · exact hwf _ hm'
              · exact hwg'
            · exact hwo'
          obtain ⟨xs', c', hrec, hlen', hwf'⟩ := variationLoop_spec typeOf vchoice mkTree ent
            hmk fuel (i + 2) ((xs.set i g').set nxt o') (c + 4) hwf₂
            (by rw [List.length_set, List.length_set]; omega)
          exact ⟨xs', c', hrec, by rw [hlen', List.length_set, List.length_set], hwf'⟩
      | reproduceOp =>
        simp only [hv]
        obtain ⟨xs', c', hrec, hlen', hwf'⟩ := variationLoop_spec typeOf vchoice mkTree ent
          hmk fuel (i + 1) xs (c + 1) hwf (by omega)
        exact ⟨xs', c', hrec, hlen', hwf'⟩

/-- `Population::nextGeneration`: evaluate the generation (memoized), push
two copies of the best individual, run `count = size - 3` (in `size_t`)
tournament rounds guarded by `select`'s assertion, run the variation pass
over the new generation, append a third unmodified copy of the best
individual, install the new generation and increment the generation
counter.  `dump` only prints and is omitted. -/
def nextGeneration (f : List (List NodeStorage) → List Rat) (typeOf : Nat → Nat)
    (vchoice : Nat → VChoice) (mkTree : Nat → Nat → List NodeStorage) (ent : Nat → Nat)
    (s : PopState) : Option PopState :=
  let r := evaluateGeneration f s
  let s0 := r.1
  let best := r.2.1
  let n := s0.individuals.length
  let count := sizeTSub n 3
  if selectAssertOK count n then
    let sel := selectRounds s0.individuals s0.fitnesses ent count 0
    let newGen := s0.individuals.getD best [] :: s0.individuals.getD best [] :: sel.1
    match variationLoop typeOf vchoice mkTree ent newGen.length 0 newGen sel.2 with
    | some (xs, _) => some { s0 with
        individuals := xs ++ [s0.individuals.getD best []]
        generation := s0.generation + 1 }
    | none => none
  else none

theorem bestScan_lt (fits : List Rat) (n : Nat) (hn : 0 < n) :
    (bestScan fits n).1 < n := by
  have key : ∀ (l : List Nat) (b : Nat × Rat), b.1 < n → (∀ j ∈ l, j < n) →
      (l.foldl (fun b i => if b.2 < fits.getD i 0 then (i, fits.getD i 0) else b) b).1 < n := by
    intro l
    induction l with
    | nil => intro b hb _; simpa using hb
    | cons x xs ih =>
      intro b hb hl
      simp only [List.foldl_cons]
      apply ih
      · split
        · exact hl x (List.mem_cons_self x xs)
        · exact hb
      · exact fun j hj => hl j (List.mem_cons_of_mem x hj)
  exact key (List.range n) (0, fits.getD 0 0) hn (fun j hj => List.mem_range.mp hj)

/-- C7: for an initialized population of `N ≥ 4` well-formed individuals
(not yet evaluated for the current generation, delegate trees well
formed), `nextGeneration` succeeds, the population again holds exactly `N`
individuals, the generation counter is incremented by exactly 1, and the
final individual of the new generation is, by value and unmodified, the
individual of highest fitness of the previous generation (the argmax of
the delegate's fitness values, first index on ties). -/
theorem claim_C7 (f : List (List NodeStorage) → List Rat) (typeOf : Nat → Nat)
    (vchoice : Nat → VChoice) (mkTree : Nat → Nat → List NodeStorage) (ent : Nat → Nat)
    (s : PopState)
    (hN : 4 ≤ s.individuals.length) (hNb : s.individuals.length < 2 ^ 64)
    (hwf : ∀ g ∈ s.individuals, WFTree g)
    (hmk : ∀ c t, WFTree (mkTree c t))
    (hev : s.evaluatedGeneration ≠ s.generation) :
    ∃ s' : PopState,
      nextGeneration f typeOf vchoice mkTree ent s = some s' ∧
      s'.individuals.length = s.individuals.length ∧
      s'.generation = s.generation + 1 ∧
      s'.individuals.getLast? =
        some (s.individuals.getD
          (bestScan (f s.individuals) s.individuals.length).1 []) := by
  set best := (bestScan (f s.individuals) s.individuals.length).1 with hbestdef
  have hbest : best < s.individuals.length := bestScan_lt _ _ (by omega)
  have heval : evaluateGeneration f s =
      ({ s with
          fitnesses := f s.individuals
          currentBestIndividualId := best
          evaluatedGeneration := s.generation }, best, true) := by
    rw [evaluateGeneration, if_neg hev]
  have hassert : selectAssertOK (sizeTSub s.individuals.length 3) s.individuals.length := by
    unfold selectAssertOK sizeTSub
    omega
  have hn3 : sizeTSub s.individuals.length 3 = s.individuals.length - 3 := by
    unfold sizeTSub
    omega
  obtain ⟨hsellen, hselmem⟩ := selectRounds_spec s.individuals (f s.individuals) ent
    (by omega) (sizeTSub s.individuals.length 3) 0
  have helwf : WFTree (s.individuals.getD best []) := hwf _ (getD_mem hbest)
  set sel := selectRounds s.individuals (f s.individuals) ent
    (sizeTSub s.individuals.length 3) 0 with hseldef
  set newGen := s.individuals.getD best [] :: s.individuals.getD best [] :: sel.1
    with hngdef
  have hngwf : ∀ g ∈ newGen, WFTree g := by
    intro g hg
    rw [hngdef] at hg
    simp only [List.mem_cons] at hg
    rcases hg with rfl | rfl | hm
    · exact helwf
    · exact helwf
    · exact hwf _ (hselmem g hm)
  have hnglen : newGen.length = s.individuals.length - 1 := by
    rw [hngdef]
    simp [hsellen, hn3]
    omega
  obtain ⟨xs', c', hvl, hvllen, _⟩ := variationLoop_spec typeOf vchoice mkTree ent hmk
    newGen.length 0 newGen sel.2 hngwf (by omega)
  refine ⟨{ individuals := xs' ++ [s.individuals.getD best []]
            fitnesses := f s.individuals
            currentBestIndividualId := best
            evaluatedGeneration := s.generation
            generation := s.generation + 1 }, ?_, ?_, ?_, ?_⟩
  · rw [nextGeneration]
    simp only [heval]
    rw [if_pos hassert]
    simp only [← hseldef, ← hngdef, hvl]
  · simp only [List.length_append, List.length_singleton, hvllen, hnglen]
    omega
  · rfl
  · simp [List.getLast?_concat]

/-- Single-node genome for the C7 witness. -/
def c7g : RTree Nat := .node 5 .nil

/-- Concrete four-individual population for the C7 witness, not yet
evaluated for generation 0. -/
def c7state : PopState :=
  ⟨[flattenT c7g, flattenT c7g, flattenT c7g, flattenT c7g], [], 0, -1, 0⟩

/-- Concrete fitness delegate for the C7 witness. -/
def c7f : List (List NodeStorage) → List Rat := fun _ => [1, 2, 3, 4]

/-- Concrete `generateRandomTreeOfType` delegate for the C7 witness. -/
def c7mk : Nat → Nat → List NodeStorage := fun _ _ => flattenT c7g

theorem claim_C7_witness :
    4 ≤ c7state.individuals.length ∧ c7state.individuals.length < 2 ^ 64 ∧
    (∀ g ∈ c7state.individuals, WFTree g) ∧
    (∀ c t, WFTree (c7mk c t)) ∧
    c7state.evaluatedGeneration ≠ c7state.generation ∧
    ∃ s' : PopState,
      nextGeneration c7f (fun _ => 0) (fun _ => VChoice.reproduceOp)
        c7mk (fun _ => 0) c7state = some s' ∧
      s'.individuals.length = c7state.individuals.length ∧
      s'.generation = c7state.generation + 1 ∧
      s'.individuals.getLast? = some (c7state.individuals.getD
        (bestScan (c7f c7state.individuals) c7state.individuals.length).1 []) :=
  ⟨by decide, by decide,
    by
      intro g hg
      simp only [c7state, List.mem_cons, List.not_mem_nil, or_false] at hg
      rcases hg with rfl | rfl | rfl | rfl <;> exact ⟨c7g, rfl⟩,
    fun _ _ => ⟨c7g, rfl⟩,
    by decide,
    claim_C7 c7f (fun _ => 0) (fun _ => VChoice.reproduceOp) c7mk
      (fun _ => 0) c7state (by decide) (by decide)
      (by
        intro g hg
        simp only [c7state, List.mem_cons, List.not_mem_nil, or_false] at hg
        rcases hg with rfl | rfl | rfl | rfl <;> exact ⟨c7g, rfl⟩)
      (fun _ _ => ⟨c7g, rfl⟩) (by decide)⟩

/-- Modelled from the spec: one grammar `Definition` with the attributes
`generate` consults — the node value (`code`), the kind
(terminal/function) and the ordered argument types (`none` stands for
`invalidTypeId`).  The grammar sources (`grammar.h`) are not part of the
repository snapshot under verification. -/
structure GDefinition where
  value : Nat
  isTerminal : Bool
  argTypes : List (Option Nat)
deriving DecidableEq

/-- Modelled from the spec: the per-type `TypeDefinitionSet` view of the
grammar — the terminals and the functions of a type. -/
structure DefSet where
  terminals : List GDefinition
  functions : List GDefinition
deriving DecidableEq

/-- Modelled from the spec: the grammar as the family of its per-type
definition sets (`definitionSetForType`); the set at `none` is the global
set used for `invalidTypeId`. -/
structure GGrammar where
  sets : Option Nat → DefSet

/-- Modelled from the spec: `randomTerminalValueForDefinitonSet` (resp.
`randomTerminalValue`) followed by the resolution of the drawn code
(`definitionIdForTreeGenomeValue` over the `[code, code + weight)`
ranges).  The weight-proportional uniform draw over the terminal range
collapses to a choice of one terminal definition driven by the entropy
value `e`; an empty range (undefined behaviour of
`uniform_int_distribution` in C++) yields `none`. -/
def drawTerminal (s : DefSet) (e : Nat) : Option GDefinition :=
  s.terminals[e % s.terminals.length]?

/-- Modelled from the spec: `randomFunctionValueForDefinitonSet` /
`randomFunctionValue` followed by code resolution; see `drawTerminal`. -/
def drawFunction (s : DefSet) (e : Nat) : Option GDefinition :=
  s.functions[e % s.functions.length]?

/-- Modelled from the spec: `randomNodeValueForDefinitonSet` /
`randomNodeValue` followed by code resolution (the constrained code space
is the concatenation `[terminals | functions]`); see `drawTerminal`. -/
def drawNode (s : DefSet) (e : Nat) : Option GDefinition :=
  (s.terminals ++ s.functions)[e % (s.terminals.length + s.functions.length)]?

inductive GenErr where
  | depthExhausted
  | badDraw
deriving DecidableEq

/-- The ternary draw of `generate`'s step 3:
`strategy == Strategy::Full ? randomFunctionValue... : randomNodeValue...`. -/
def drawFor (strat : Strategy) (s : DefSet) (e : Nat) : Option GDefinition :=
  match strat with
  | .full => drawFunction s e
  | .grow => drawNode s e

mutual

/-- `TreeGenerator::generate(builder, maxDepth, strategy, type)`.  The RNG
is the entropy stream `ent` with a running counter; drawing over an empty
range is `.error .badDraw` (C++ undefined behaviour).  `fuel` bounds the
recursion depth — the C++ recursion has no such bound, and exhausting it
is reported as `.error .depthExhausted`, so a proof that the result never
equals `.error .depthExhausted` is exactly a recursion-depth bound for the
source. -/
def generate (g : GGrammar) (ent : Nat → Nat) :
    Nat → BuilderState → Nat → Int → Strategy → Option Nat →
    Except GenErr (BuilderState × Nat)
  | 0, _, _, _, _, _ => .error .depthExhausted
  | fuel + 1, b, c, maxDepth, strat, ty =>
    -- `set` is `definitionSetForType(type)`; the first condition is
    -- `maxDepth <= 1 && hasTerminals` with
    -- `hasTerminals = hasType ? set.hasTerminals() : true`.
    if maxDepth ≤ 1 ∧ (if ty.isSome then !(g.sets ty).terminals.isEmpty else true) = true then
      match drawTerminal (g.sets ty) (ent c) with
      | some d => .ok (b.add d.value, c + 1)
      | none => .error .badDraw
    else
      match drawFor strat (g.sets ty) (ent c) with
      | none => .error .badDraw
      | some d =>
        if d.isTerminal then .ok (b.add d.value, c + 1)
        else
          -- assert(def.isFunction() && def.getNumArguments() > 0)
          match generateArgs g ent fuel d.argTypes (b.push d.value) (c + 1)
              (maxDepth - 1) strat with
          | .ok (b₂, c₂) => .ok (b₂.pop, c₂)
          | .error err => .error err
termination_by fuel _ _ _ _ _ => (fuel, 0)

/-- The argument loop of `TreeGenerator::generate`: one recursive
`generate` call per argument type of the drawn function. -/
def generateArgs (g : GGrammar) (ent : Nat → Nat) :
    Nat → List (Option Nat) → BuilderState → Nat → Int → Strategy →
    Except GenErr (BuilderState × Nat)
  | _, [], b, c, _, _ => .ok (b, c)
  | fuel, t :: ts, b, c, d, strat =>
    match generate g ent fuel b c d strat t with
    | .ok (b₁, c₁) => generateArgs g ent fuel ts b₁ c₁ d strat
    | .error err => .error err
termination_by fuel ts _ _ _ _ => (fuel, ts.length + 1)

end

/-- Reachability between definition sets: from the requested type the
generator can reach the argument types of any function of an already
reachable type's set. -/
inductive Reach (g : GGrammar) : Option Nat → Option Nat → Prop
  | refl (t : Option Nat) : Reach g t t
  | step {t u : Option Nat} {d : GDefinition} {a : Option Nat} :
      Reach g t u → d ∈ (g.sets u).functions → a ∈ d.argTypes → Reach g t a

theorem Reach.trans' {g : GGrammar} {t u v : Option Nat}
    (h₁ : Reach g t u) (h₂ : Reach g u v) : Reach g t v := by
  induction h₂ with
  | refl => exact h₁
  | step _ hm ha ih => exact .step ih hm ha

/-- The grammar construction invariants (spec §3): every terminal has kind
terminal and no arguments are consulted for it; every function has kind
function and at least one argument. -/
def DefSetWF (s : DefSet) : Prop :=
  (∀ d ∈ s.terminals, d.isTerminal = true) ∧
  (∀ d ∈ s.functions, d.isTerminal = false ∧ d.argTypes ≠ [])

/-- Every definition set reachable from `ty` is well formed and has at
least one terminal (the precondition of C5). -/
def ReachTermOK (g : GGrammar) (ty : Option Nat) : Prop :=
  ∀ u, Reach g ty u → DefSetWF (g.sets u) ∧ (g.sets u).terminals ≠ []

/-- Every definition set reachable from `ty` is well formed and has at
least one terminal and at least one function (the precondition of C4). -/
def ReachFullOK (g : GGrammar) (ty : Option Nat) : Prop :=
  ∀ u, Reach g ty u → DefSetWF (g.sets u) ∧
    (g.sets u).terminals ≠ [] ∧ (g.sets u).functions ≠ []

theorem reachTermOK_arg {g : GGrammar} {ty a : Option Nat} {d : GDefinition}
    (h : ReachTermOK g ty) (hd : d ∈ (g.sets ty).functions) (ha : a ∈ d.argTypes) :
    ReachTermOK g a :=
  fun u hu => h u (Reach.trans' (Reach.step (Reach.refl ty) hd ha) hu)

theorem reachFullOK_arg {g : GGrammar} {ty a : Option Nat} {d : GDefinition}
    (h : ReachFullOK g ty) (hd : d ∈ (g.sets ty).functions) (ha : a ∈ d.argTypes) :
    ReachFullOK g a :=
  fun u hu => h u (Reach.trans' (Reach.step (Reach.refl ty) hd ha) hu)

theorem drawTerminal_ok {s : DefSet} (h : s.terminals ≠ []) (e : Nat) :
    ∃ d, drawTerminal s e = some d ∧ d ∈ s.terminals := by
  have hl : 0 < s.terminals.length := List.length_pos.mpr h
  have hm : e % s.terminals.length < s.terminals.length := Nat.mod_lt _ hl
  refine ⟨s.terminals[e % s.terminals.length], ?_, List.getElem_mem _⟩
  rw [drawTerminal, List.getElem?_eq_getElem hm]

theorem drawFunction_ok {s : DefSet} (h : s.functions ≠ []) (e : Nat) :
    ∃ d, drawFunction s e = some d ∧ d ∈ s.functions := by
  have hl : 0 < s.functions.length := List.length_pos.mpr h
  have hm : e % s.functions.length < s.functions.length := Nat.mod_lt _ hl
  refine ⟨s.functions[e % s.functions.length], ?_, List.getElem_mem _⟩
  rw [drawFunction, List.getElem?_eq_getElem hm]

theorem drawNode_mem {s : DefSet} {e : Nat} {d : GDefinition}
    (h : drawNode s e = some d) : d ∈ s.terminals ++ s.functions := by
  rw [drawNode] at h
  exact List.getElem?_mem h

theorem drawNode_ok {s : DefSet} (h : s.terminals ≠ []) (e : Nat) :
    ∃ d, drawNode s e = some d := by
  have hl : 0 < s.terminals.length + s.functions.length := by
    have := List.length_pos.mpr h
    omega
  have hm := Nat.mod_lt e hl
  rw [drawNode]
  have hlt : e % (s.terminals.length + s.functions.length) <
      (s.terminals ++ s.functions).length := by
    rw [List.length_append]; exact hm
  exact ⟨_, List.getElem?_eq_getElem hlt⟩

/-- The effect on the node array of completing one subtree under the
current builder stack: if the stack is nonempty the top node gains one
child and `s` subtree nodes. -/
def bumpFor (stack : List Nat) (nodes : List NodeStorage) (s : Nat) : List NodeStorage :=
  match stack with
  | [] => nodes
  | t :: _ => nodes.set t { nodeAt nodes t with
      childCount := (nodeAt nodes t).childCount + 1
      subTreeSize := (nodeAt nodes t).subTreeSize + s }

/-- The effect of completing `k` consecutive subtrees (total size `s`). -/
def bumpForN (stack : List Nat) (nodes : List NodeStorage) (s k : Nat) : List NodeStorage :=
  match stack with
  | [] => nodes
  | t :: _ => nodes.set t { nodeAt nodes t with
      childCount := (nodeAt nodes t).childCount + k
      subTreeSize := (nodeAt nodes t).subTreeSize + s }

theorem set_nodeAt_self (l : List NodeStorage) (t : Nat) : l.set t (nodeAt l t) = l := by
  induction l generalizing t with
  | nil => simp
  | cons x xs ih =>
    cases t with
    | zero => simp [nodeAt]
    | succ t =>
      simp only [List.set, nodeAt, List.getD_cons_succ]
      rw [show xs.getD t default = nodeAt xs t from rfl, ih]

theorem bumpForN_zero (stack : List Nat) (nodes : List NodeStorage) :
    bumpForN stack nodes 0 0 = nodes := by
  cases stack with
  | nil => rfl
  | cons t _ =>
    simp only [bumpForN, Nat.add_zero]
    exact set_nodeAt_self nodes t

theorem nodeAt_set_self {l : List NodeStorage} {t : Nat} (h : t < l.length)
    (v : NodeStorage) : nodeAt (l.set t v) t = v := by
  rw [nodeAt, List.getD_eq_getElem _ _ (by rw [List.length_set]; exact h)]
  exact List.getElem_set_self _

mutual

def tmapT {α β : Type} (f : α → β) : RTree α → RTree β
  | .node a cs => .node (f a) (tmapF f cs)

def tmapF {α β : Type} (f : α → β) : RForest α → RForest β
  | .nil => .nil
  | .cons t ts => .cons (tmapT f t) (tmapF f ts)

end

mutual

theorem sizeT_tmapT {α β : Type} (f : α → β) : (rt : RTree α) →
    sizeT (tmapT f rt) = sizeT rt
  | .node a cs => by simp [tmapT, sizeT, sizeF_tmapF f cs]

theorem sizeF_tmapF {α β : Type} (f : α → β) : (ts : RForest α) →
    sizeF (tmapF f ts) = sizeF ts
  | .nil => rfl
  | .cons t ts => by simp [tmapF, sizeF, sizeT_tmapT f t, sizeF_tmapF f ts]

end

theorem lengthF_tmapF {α β : Type} (f : α → β) : (ts : RForest α) →
    lengthF (tmapF f ts) = lengthF ts
  | .nil => rfl
  | .cons t ts => by simp [tmapF, lengthF, lengthF_tmapF f ts]

/-- The child-count bump `push` applies to the stack top (if any) before
appending the new node. -/
def bumpTop (stack : List Nat) (nodes : List NodeStorage) : List NodeStorage :=
  match stack with
  | [] => nodes
  | t :: _ => bumpChild nodes t

theorem bumpTop_length (stack : List Nat) (nodes : List NodeStorage) :
    (bumpTop stack nodes).length = nodes.length := by
  cases stack with
  | nil => rfl
  | cons t _ => simp [bumpTop, bumpChild]

theorem push_eq (nodes : List NodeStorage) (stack : List Nat) (v : Nat) :
    (⟨nodes, stack⟩ : BuilderState).push v =
      ⟨bumpTop stack nodes ++ [⟨v, 0, 1⟩], nodes.length :: stack⟩ := by
  cases stack with
  | nil => rfl
  | cons t rest => simp [BuilderState.push, addNode, bumpChild, bumpTop]

theorem add_eq (nodes : List NodeStorage) (stack : List Nat) (v : Nat)
    (hstk : ∀ j ∈ stack, j < nodes.length) :
    (⟨nodes, stack⟩ : BuilderState).add v =
      ⟨bumpFor stack nodes 1 ++ [⟨v, 0, 1⟩], stack⟩ := by
  cases stack with
  | nil => rfl
  | cons t rest =>
    have ht : t < nodes.length := hstk t (List.mem_cons_self t rest)
    simp only [BuilderState.add, addNode, bumpChildAndSize, bumpFor]
    congr 1
    rw [show nodeAt (nodes ++ [⟨v, 0, 1⟩]) t = nodeAt nodes t from nodeAt_append_left ht,
      List.set_append_left _ _ ht]

theorem bump_compose (nodes : List NodeStorage) (stack : List Nat)
    (hstk : ∀ j ∈ stack, j < nodes.length) (A B : List NodeStorage) (s₁ s₂ k : Nat) :
    bumpForN stack (bumpFor stack nodes s₁ ++ A) s₂ k ++ B =
      bumpForN stack nodes (s₁ + s₂) (k + 1) ++ (A ++ B) := by
  cases stack with
  | nil => simp [bumpFor, bumpForN]
  | cons p rest =>
    have hp : p < nodes.length := hstk p (List.mem_cons_self p rest)
    simp only [bumpFor, bumpForN]
    rw [nodeAt_append_left (by rw [List.length_set]; exact hp),
      nodeAt_set_self hp,
      List.set_append_left _ _ (by rw [List.length_set]; exact hp),
      List.set_set]
    have h1 : (nodeAt nodes p).childCount + 1 + k = (nodeAt nodes p).childCount + (k + 1) := by
      omega
    have h2 : (nodeAt nodes p).subTreeSize + s₁ + s₂ =
        (nodeAt nodes p).subTreeSize + (s₁ + s₂) := by
      omega
    simp only [h1, h2, List.append_assoc]

theorem pushArgsPop (nodes : List NodeStorage) (stack : List Nat) (v : Nat)
    (hstk : ∀ j ∈ stack, j < nodes.length) (s k : Nat) (F : List NodeStorage) :
    (⟨bumpForN (nodes.length :: stack)
        (bumpTop stack nodes ++ [⟨v, 0, 1⟩]) s k ++ F,
      nodes.length :: stack⟩ : BuilderState).pop =
      ⟨bumpFor stack nodes (1 + s) ++ (⟨v, k, 1 + s⟩ :: F), stack⟩ := by
  cases stack with
  | nil =>
    simp only [bumpForN, bumpFor, bumpTop]
    have hroot : nodeAt (nodes ++ [(⟨v, 0, 1⟩ : NodeStorage)]) nodes.length = ⟨v, 0, 1⟩ := by
      rw [nodeAt_append_right (Nat.le_refl _), Nat.sub_self]
      rfl
    rw [hroot, List.set_append_right _ _ (Nat.le_refl _), Nat.sub_self]
    simp only [List.set_cons_zero, BuilderState.pop, List.append_assoc, List.cons_append,
      List.nil_append, Nat.zero_add]
  | cons p rest =>
    have hp : p < nodes.length := hstk p (List.mem_cons_self p rest)
    simp only [bumpForN, bumpFor, bumpTop]
    have hblen : (bumpChild nodes p).length = nodes.length := by
      rw [bumpChild, List.length_set]
    have hroot : nodeAt (bumpChild nodes p ++ [(⟨v, 0, 1⟩ : NodeStorage)]) nodes.length =
        ⟨v, 0, 1⟩ := by
      rw [nodeAt_append_right (by omega), hblen, Nat.sub_self]
      rfl
    rw [hroot, List.set_append_right _ _ (by omega), hblen, Nat.sub_self]
    simp only [List.set_cons_zero]
    rw [BuilderState.pop]
    simp only []
    have hmid : nodeAt ((bumpChild nodes p ++
        [(⟨v, 0 + k, 1 + s⟩ : NodeStorage)]) ++ F) nodes.length = ⟨v, 0 + k, 1 + s⟩ := by
      rw [List.append_assoc, nodeAt_append_right (by omega), hblen, Nat.sub_self]
      rfl
    rw [hmid]
    simp only [bumpSize]
    have hpb : p < (bumpChild nodes p ++ [(⟨v, 0 + k, 1 + s⟩ : NodeStorage)]).length := by
      simp [hblen]
      omega
    have hap : nodeAt ((bumpChild nodes p ++ [(⟨v, 0 + k, 1 + s⟩ : NodeStorage)]) ++ F) p =
        { nodeAt nodes p with childCount := (nodeAt nodes p).childCount + 1 } := by
      rw [nodeAt_append_left hpb, nodeAt_append_left (by omega)]
      exact nodeAt_set_self hp _
    rw [hap, List.set_append_left _ _ hpb, List.set_append_left _ _ (by omega)]
    rw [bumpChild, List.set_set]
    simp only [List.append_assoc, List.cons_append, List.nil_append, Nat.zero_add]

theorem bumpFor_length (stack : List Nat) (nodes : List NodeStorage) (s : Nat) :
    (bumpFor stack nodes s).length = nodes.length := by
  cases stack <;> simp [bumpFor]

mutual

/-- Whatever the strategy, the types and the draws, a successful
`generate` call leaves the builder stack unchanged and appends the packed
layout of one complete subtree to the node array, adding one child and the
subtree's size to the stack top's counts. -/
theorem generate_shape (g : GGrammar) (ent : Nat → Nat) :
    ∀ fuel (nodes : List NodeStorage) (stack : List Nat) (c : Nat) (maxDepth : Int)
      (strat : Strategy) (ty : Option Nat) (b' : BuilderState) (c' : Nat),
      (∀ j ∈ stack, j < nodes.length) →
      generate g ent fuel ⟨nodes, stack⟩ c maxDepth strat ty = .ok (b', c') →
      ∃ rt : RTree Nat, b' = ⟨bumpFor stack nodes (sizeT rt) ++ flattenT rt, stack⟩
  | 0, nodes, stack, c, maxDepth, strat, ty, b', c', hstk, heq => by
    rw [generate] at heq
    simp at heq
  | fuel + 1, nodes, stack, c, maxDepth, strat, ty, b', c', hstk, heq => by
    rw [generate] at heq
    by_cases hcond : maxDepth ≤ 1 ∧
        (if ty.isSome then !(g.sets ty).terminals.isEmpty else true) = true
    · rw [if_pos hcond] at heq
      cases hdt : drawTerminal (g.sets ty) (ent c) with
      | none => rw [hdt] at heq; simp at heq
      | some d =>
        rw [hdt] at heq
        have heq' : (Except.ok ((⟨nodes, stack⟩ : BuilderState).add d.value, c + 1) :
            Except GenErr (BuilderState × Nat)) = .ok (b', c') := heq
        simp only [Except.ok.injEq, Prod.mk.injEq] at heq'
        obtain ⟨hb, _⟩ := heq'
        refine ⟨.node d.value .nil, ?_⟩
        rw [← hb, add_eq nodes stack d.value hstk]
        simp [flattenT, flattenF, sizeT, sizeF, lengthF]
    · rw [if_neg hcond] at heq
      cases hdr : drawFor strat (g.sets ty) (ent c) with
      | none => rw [hdr] at heq; simp at heq
      | some d =>
        rw [hdr] at heq
        have heq₁ : (if d.isTerminal = true then
            (Except.ok ((⟨nodes, stack⟩ : BuilderState).add d.value, c + 1) :
              Except GenErr (BuilderState × Nat))
          else
            match generateArgs g ent fuel d.argTypes
                ((⟨nodes, stack⟩ : BuilderState).push d.value) (c + 1)
                (maxDepth - 1) strat with
            | .ok (b₂, c₂) => .ok (b₂.pop, c₂)
            | .error err => .error err) = .ok (b', c') := heq
        by_cases hterm : d.isTerminal = true
        · rw [if_pos hterm] at heq₁
          simp only [Except.ok.injEq, Prod.mk.injEq] at heq₁
          obtain ⟨hb, _⟩ := heq₁
          refine ⟨.node d.value .nil, ?_⟩
          rw [← hb, add_eq nodes stack d.value hstk]
          simp [flattenT, flattenF, sizeT, sizeF, lengthF]
        · rw [if_neg hterm] at heq₁
          cases har : generateArgs g ent fuel d.argTypes
              ((⟨nodes, stack⟩ : BuilderState).push d.value) (c + 1) (maxDepth - 1) strat with
          | error err => rw [har] at heq₁; simp at heq₁
          | ok p =>
            obtain ⟨b₂, c₂⟩ := p
            rw [har] at heq₁
            have heq' : (Except.ok (b₂.pop, c₂) :
                Except GenErr (BuilderState × Nat)) = .ok (b', c') := heq₁
            simp only [Except.ok.injEq, Prod.mk.injEq] at heq'
            obtain ⟨hb, _⟩ := heq'
            rw [push_eq] at har
            have hstk₂ : ∀ j ∈ nodes.length :: stack,
                j < (bumpTop stack nodes ++ [(⟨d.value, 0, 1⟩ : NodeStorage)]).length := by
              intro j hj
              rw [List.length_append, bumpTop_length]
              rcases List.mem_cons.mp hj with rfl | hj'
              · simp
              · have := hstk j hj'
                simp
                omega
            obtain ⟨cs, hb₂⟩ := generateArgs_shape g ent fuel d.argTypes _ _ (c + 1)
              (maxDepth - 1) strat b₂ c₂ hstk₂ har
            refine ⟨.node d.value cs, ?_⟩
            rw [← hb, hb₂]
            exact pushArgsPop nodes stack d.value hstk (sizeF cs) (lengthF cs)
              (flattenF cs)

theorem generateArgs_shape (g : GGrammar) (ent : Nat → Nat) :
    ∀ fuel (ts : List (Option Nat)) (nodes : List NodeStorage) (stack : List Nat)
      (c : Nat) (maxDepth : Int) (strat : Strategy) (b' : BuilderState) (c' : Nat),
      (∀ j ∈ stack, j < nodes.length) →
      generateArgs g ent fuel ts ⟨nodes, stack⟩ c maxDepth strat = .ok (b', c') →
      ∃ cs : RForest Nat,
        b' = ⟨bumpForN stack nodes (sizeF cs) (lengthF cs) ++ flattenF cs, stack⟩
  | fuel, [], nodes, stack, c, maxDepth, strat, b', c', hstk, heq => by
    rw [generateArgs] at heq
    have heq' : (Except.ok ((⟨nodes, stack⟩ : BuilderState), c) :
        Except GenErr (BuilderState × Nat)) = .ok (b', c') := heq
    simp only [Except.ok.injEq, Prod.mk.injEq] at heq'
    obtain ⟨hb, _⟩ := heq'
    refine ⟨.nil, ?_⟩
    rw [← hb]
    simp [sizeF, lengthF, flattenF, bumpForN_zero]
  | fuel, t :: ts, nodes, stack, c, maxDepth, strat, b', c', hstk, heq => by
    rw [generateArgs] at heq
    cases hg1 : generate g ent fuel ⟨nodes, stack⟩ c maxDepth strat t with
    | error err => rw [hg1] at heq; simp at heq
    | ok p =>
      obtain ⟨b₁, c₁⟩ := p
      rw [hg1] at heq
      obtain ⟨rt, hb₁⟩ := generate_shape g ent fuel nodes stack c maxDepth strat t b₁ c₁
        hstk hg1
      subst hb₁
      have hstk₁ : ∀ j ∈ stack,
          j < (bumpFor stack nodes (sizeT rt) ++ flattenT rt).length := by
        intro j hj
        have := hstk j hj
        rw [List.length_append, bumpFor_length]
        omega
      have heq₂ : generateArgs g ent fuel ts
          ⟨bumpFor stack nodes (sizeT rt) ++ flattenT rt, stack⟩ c₁ maxDepth strat =
          .ok (b', c') := heq
      obtain ⟨cs', hb'⟩ := generateArgs_shape g ent fuel ts _ _ c₁ maxDepth strat b' c'
        hstk₁ heq₂
      refine ⟨.cons rt cs', ?_⟩
      rw [hb']
      rw [show (⟨bumpForN stack (bumpFor stack nodes (sizeT rt) ++ flattenT rt)
          (sizeF cs') (lengthF cs') ++ flattenF cs', stack⟩ : BuilderState) =
        ⟨bumpForN stack nodes (sizeT rt + sizeF cs') (lengthF cs' + 1) ++
          (flattenT rt ++ flattenF cs'), stack⟩ from by
        rw [bump_compose nodes stack hstk]]
      rfl

end

theorem drawFunction_mem {s : DefSet} {e : Nat} {d : GDefinition}
    (h : drawFunction s e = some d) : d ∈ s.functions := by
  rw [drawFunction] at h
  exact List.getElem?_mem h

mutual

/-- Recursion-depth bound for `generate` under the terminals-everywhere
precondition: the `maxDepth ≤ 1` case returns without recursing (the set
always has a terminal), every recursive call decreases `maxDepth` by one,
so fuel `max 1 maxDepth.toNat` is never exhausted. -/
theorem generate_term (g : GGrammar) (ent : Nat → Nat) :
    ∀ fuel (b : BuilderState) (c : Nat) (maxDepth : Int) (strat : Strategy)
      (ty : Option Nat),
      ReachTermOK g ty → 1 ≤ fuel → maxDepth.toNat ≤ fuel →
      generate g ent fuel b c maxDepth strat ty ≠ .error .depthExhausted
  | 0, b, c, maxDepth, strat, ty, hok, h1, h2 => by omega
  | fuel + 1, b, c, maxDepth, strat, ty, hok, h1, h2 => by
    rw [generate]
    by_cases hcond : maxDepth ≤ 1 ∧
        (if ty.isSome then !(g.sets ty).terminals.isEmpty else true) = true
    · rw [if_pos hcond]
      obtain ⟨_, hterm⟩ := hok ty (Reach.refl ty)
      obtain ⟨d, hd, _⟩ := drawTerminal_ok hterm (ent c)
      rw [hd]
      simp
    · rw [if_neg hcond]
      have hht : (if ty.isSome then !(g.sets ty).terminals.isEmpty else true) = true := by
        cases ty with
        | none => rfl
        | some t0 =>
          obtain ⟨_, htn⟩ := hok (some t0) (Reach.refl _)
          simpa [List.isEmpty_iff] using htn
      have hd2 : 2 ≤ maxDepth := by
        by_contra hlt
        push_neg at hlt
        exact hcond ⟨by omega, hht⟩
      cases hdr : drawFor strat (g.sets ty) (ent c) with
      | none => simp
      | some d =>
        show (if d.isTerminal = true then
            (Except.ok (b.add d.value, c + 1) : Except GenErr (BuilderState × Nat))
          else
            match generateArgs g ent fuel d.argTypes (b.push d.value) (c + 1)
                (maxDepth - 1) strat with
            | .ok (b₂, c₂) => .ok (b₂.pop, c₂)
            | .error err => .error err) ≠ .error .depthExhausted
        by_cases hterm : d.isTerminal = true
        · rw [if_pos hterm]
          simp
        · rw [if_neg hterm]
          have hdfun : d ∈ (g.sets ty).functions := by
            obtain ⟨⟨hwt, _⟩, _⟩ := hok ty (Reach.refl ty)
            cases strat with
            | full =>
              simp only [drawFor] at hdr
              exact drawFunction_mem hdr
            | grow =>
              simp only [drawFor] at hdr
              rcases List.mem_append.mp (drawNode_mem hdr) with hmem | hmem
              · exact absurd (hwt d hmem) hterm
              · exact hmem
          have hargs : ∀ t ∈ d.argTypes, ReachTermOK g t :=
            fun t ht => reachTermOK_arg hok hdfun ht
          have hne := generateArgs_term g ent fuel d.argTypes (b.push d.value) (c + 1)
            (maxDepth - 1) strat hargs (by omega) (by omega)
          cases har : generateArgs g ent fuel d.argTypes (b.push d.value) (c + 1)
              (maxDepth - 1) strat with
          | ok p => simp
          | error err =>
            intro hc
            apply hne
            rw [har]
            have : err = GenErr.depthExhausted := by
              have hc' : (Except.error err : Except GenErr (BuilderState × Nat)) =
                  .error .depthExhausted := hc
              simpa using hc'
            rw [this]

theorem generateArgs_term (g : GGrammar) (ent : Nat → Nat) :
    ∀ fuel (ts : List (Option Nat)) (b : BuilderState) (c : Nat) (maxDepth : Int)
      (strat : Strategy),
      (∀ t ∈ ts, ReachTermOK g t) → 1 ≤ fuel → maxDepth.toNat ≤ fuel →
      generateArgs g ent fuel ts b c maxDepth strat ≠ .error .depthExhausted
  | fuel, [], b, c, maxDepth, strat, hok, h1, h2 => by
    rw [generateArgs]
    simp
  | fuel, t :: ts, b, c, maxDepth, strat, hok, h1, h2 => by
    rw [generateArgs]
    cases hg : generate g ent fuel b c maxDepth strat t with
    | ok p =>
      obtain ⟨b₁, c₁⟩ := p
      exact generateArgs_term g ent fuel ts b₁ c₁ maxDepth strat
        (fun u hu => hok u (List.mem_cons_of_mem t hu)) h1 h2
    | error err =>
      have hne := generate_term g ent fuel b c maxDepth strat t
        (hok t (List.mem_cons_self t ts)) h1 h2
      intro hc
      apply hne
      rw [hg]
      have : err = GenErr.depthExhausted := by
        have hc' : (Except.error err : Except GenErr (BuilderState × Nat)) =
            .error .depthExhausted := hc
        simpa using hc'
      rw [this]

end

/-- C5: with every reachable definition set well formed and holding at
least one terminal, `generate` (hence `generateFull` and `generateGrow`)
terminates for every integer `maxDepth` — recursion depth is bounded by
`max 1 maxDepth.toNat` — and a completed run emits a finite well-formed
tree (the packed layout of a single rose tree, with an empty stack). -/
theorem claim_C5 (g : GGrammar) (ent : Nat → Nat) (ty : Option Nat) (maxDepth : Int)
    (strat : Strategy) (h : ReachTermOK g ty) :
    generate g ent (max 1 maxDepth.toNat) ⟨[], []⟩ 0 maxDepth strat ty ≠
      .error .depthExhausted ∧
    ∀ b' c', generate g ent (max 1 maxDepth.toNat) ⟨[], []⟩ 0 maxDepth strat ty =
        .ok (b', c') →
      ∃ rt : RTree Nat, b'.nodes = flattenT rt ∧ b'.stack = [] := by
  constructor
  · exact generate_term g ent _ _ 0 maxDepth strat ty h (Nat.le_max_left _ _)
      (Nat.le_max_right _ _)
  · intro b' c' heq
    obtain ⟨rt, hb⟩ := generate_shape g ent _ [] [] 0 maxDepth strat ty b' c'
      (by simp) heq
    exact ⟨rt, by rw [hb]; simp [bumpFor], by rw [hb]⟩

/-- Terminal-only grammar for the C5 witness. -/
def c5gram : GGrammar := ⟨fun _ => ⟨[⟨0, true, []⟩], []⟩⟩

theorem c5gramOK : ReachTermOK c5gram (some 0) := fun _ _ => by
  show DefSetWF ⟨[⟨0, true, []⟩], []⟩ ∧ ([⟨0, true, []⟩] : List GDefinition) ≠ []
  refine ⟨⟨?_, ?_⟩, ?_⟩ <;> decide

theorem claim_C5_witness :
    ReachTermOK c5gram (some 0) ∧
    (generate c5gram (fun _ => 0) (max 1 (3 : Int).toNat) ⟨[], []⟩ 0 3 .grow (some 0) ≠
      .error .depthExhausted ∧
    ∀ b' c', generate c5gram (fun _ => 0) (max 1 (3 : Int).toNat) ⟨[], []⟩ 0 3 .grow
        (some 0) = .ok (b', c') →
      ∃ rt : RTree Nat, b'.nodes = flattenT rt ∧ b'.stack = []) :=
  ⟨c5gramOK, claim_C5 c5gram (fun _ => 0) (some 0) 3 .grow c5gramOK⟩

mutual

/-- The shape contract of the Full strategy with depth budget `d`: at
`d ≤ 1` the node is a terminal leaf; otherwise it is a function node whose
children all satisfy the contract at `d - 1`. -/
def FullShapeT (d : Int) : RTree GDefinition → Prop
  | .node a cs =>
    if d ≤ 1 then a.isTerminal = true ∧ cs = .nil
    else a.isTerminal = false ∧ cs ≠ .nil ∧ FullShapeF (d - 1) cs

def FullShapeF (d : Int) : RForest GDefinition → Prop
  | .nil => True
  | .cons t ts => FullShapeT d t ∧ FullShapeF d ts

end

def isNilF {α : Type} : RForest α → Bool
  | .nil => true
  | .cons _ _ => false

theorem isNilF_true {α : Type} {ts : RForest α} (h : isNilF ts = true) : ts = .nil := by
  cases ts with
  | nil => rfl
  | cons t ts => simp [isNilF] at h

mutual

/-- All nodes of a tree of definitions with their depth (the root of the
whole tree has depth `k`) and whether they are leaves. -/
def nodesWithDepth (k : Nat) : RTree GDefinition → List (GDefinition × Nat × Bool)
  | .node a cs => (a, k, isNilF cs) :: nodesWithDepthF (k + 1) cs

def nodesWithDepthF (k : Nat) : RForest GDefinition → List (GDefinition × Nat × Bool)
  | .nil => []
  | .cons t ts => nodesWithDepth k t ++ nodesWithDepthF k ts

end

mutual

/-- In a Full-shaped tree with budget `d` rooted at depth `k`, every leaf
is a terminal at depth exactly `k + d - 1` and every internal node is a
function. -/
theorem fullShape_nodes : (rt : RTree GDefinition) → (d : Int) → (k : Nat) →
    1 ≤ d → FullShapeT d rt →
    ∀ x ∈ nodesWithDepth k rt,
      (x.2.2 = true → x.1.isTerminal = true ∧ (x.2.1 : Int) = k + d - 1) ∧
      (x.2.2 = false → x.1.isTerminal = false)
  | .node a cs, d, k, hd, hsh => by
    intro x hx
    rw [nodesWithDepth] at hx
    rcases List.mem_cons.mp hx with rfl | hx'
    · by_cases h1 : d ≤ 1
      · rw [FullShapeT, if_pos h1] at hsh
        obtain ⟨hterm, hnil⟩ := hsh
        subst hnil
        exact ⟨fun _ => ⟨hterm, by simp; omega⟩, fun hf => by simp [isNilF] at hf⟩
      · rw [FullShapeT, if_neg h1] at hsh
        obtain ⟨hterm, hne, _⟩ := hsh
        exact ⟨fun ht => absurd (isNilF_true ht) hne, fun _ => hterm⟩
    · by_cases h1 : d ≤ 1
      · rw [FullShapeT, if_pos h1] at hsh
        obtain ⟨_, rfl⟩ := hsh
        simp [nodesWithDepthF] at hx'
      · rw [FullShapeT, if_neg h1] at hsh
        obtain ⟨_, _, hfsh⟩ := hsh
        obtain ⟨ha, hb⟩ := fullShape_nodesF cs (d - 1) (k + 1) (by omega) hfsh x hx'
        refine ⟨fun ht => ⟨(ha ht).1, ?_⟩, hb⟩
        have := (ha ht).2
        push_cast at this ⊢
        omega

theorem fullShape_nodesF : (ts : RForest GDefinition) → (d : Int) → (k : Nat) →
    1 ≤ d → FullShapeF d ts →
    ∀ x ∈ nodesWithDepthF k ts,
      (x.2.2 = true → x.1.isTerminal = true ∧ (x.2.1 : Int) = k + d - 1) ∧
      (x.2.2 = false → x.1.isTerminal = false)
  | .nil, d, k, hd, hsh => by
    intro x hx
    simp [nodesWithDepthF] at hx
  | .cons t ts, d, k, hd, hsh => by
    intro x hx
    rw [nodesWithDepthF] at hx
    obtain ⟨h₁, h₂⟩ := hsh
    rcases List.mem_append.mp hx with hx' | hx'
    · exact fullShape_nodes t d k hd h₁ x hx'
    · exact fullShape_nodesF ts d k hd h₂ x hx'

end

theorem lengthF_ne_zero {α : Type} {ts : RForest α} (h : lengthF ts ≠ 0) : ts ≠ .nil := by
  intro hnil
  subst hnil
  exact h rfl

theorem hasTerminals_true {g : GGrammar} {ty : Option Nat}
    (h : (g.sets ty).terminals ≠ []) :
    (if ty.isSome then !(g.sets ty).terminals.isEmpty else true) = true := by
  cases ty with
  | none => rfl
  | some t0 => simpa [List.isEmpty_iff] using h

mutual

/-- With every reachable definition set well formed and holding both a
terminal and a function, the Full strategy always succeeds and the
generated subtree satisfies the Full shape contract. -/
theorem generate_full (g : GGrammar) (ent : Nat → Nat) :
    ∀ fuel (nodes : List NodeStorage) (stack : List Nat) (c : Nat) (maxDepth : Int)
      (ty : Option Nat),
      ReachFullOK g ty → (∀ j ∈ stack, j < nodes.length) →
      1 ≤ maxDepth → maxDepth.toNat ≤ fuel →
      ∃ (rt : RTree GDefinition) (c' : Nat),
        generate g ent fuel ⟨nodes, stack⟩ c maxDepth .full ty =
          .ok (⟨bumpFor stack nodes (sizeT rt) ++
            flattenT (tmapT GDefinition.value rt), stack⟩, c') ∧
        FullShapeT maxDepth rt
  | 0, nodes, stack, c, maxDepth, ty, hok, hstk, h1, h2 => by omega
  | fuel + 1, nodes, stack, c, maxDepth, ty, hok, hstk, h1, h2 => by
    rw [generate]
    obtain ⟨⟨hwt, hwfn⟩, htn, hfn⟩ := hok ty (Reach.refl ty)
    by_cases hd1 : maxDepth ≤ 1
    · rw [if_pos ⟨hd1, hasTerminals_true htn⟩]
      obtain ⟨d, hd, hdm⟩ := drawTerminal_ok htn (ent c)
      rw [hd]
      refine ⟨.node d .nil, c + 1, ?_, ?_⟩
      · show (Except.ok ((⟨nodes, stack⟩ : BuilderState).add d.value, c + 1) :
            Except GenErr (BuilderState × Nat)) = _
        rw [add_eq nodes stack d.value hstk]
        simp [tmapT, tmapF, flattenT, flattenF, sizeT, sizeF, lengthF]
      · rw [FullShapeT, if_pos hd1]
        exact ⟨hwt d hdm, rfl⟩
    · rw [if_neg (fun hc => hd1 hc.1)]
      obtain ⟨d, hd, hdm⟩ := drawFunction_ok hfn (ent c)
      have hdr : drawFor .full (g.sets ty) (ent c) = some d := by
        simp [drawFor, hd]
      rw [hdr]
      obtain ⟨hdterm, hdargs⟩ := hwfn d hdm
      have hstk₂ : ∀ j ∈ nodes.length :: stack,
          j < (bumpTop stack nodes ++ [(⟨d.value, 0, 1⟩ : NodeStorage)]).length := by
        intro j hj
        rw [List.length_append, bumpTop_length]
        rcases List.mem_cons.mp hj with rfl | hj'
        · simp
        · have := hstk j hj'
          simp
          omega
      obtain ⟨cs, c₂, hargs, hfsh, hlencs⟩ := generateArgs_full g ent fuel d.argTypes
        (bumpTop stack nodes ++ [⟨d.value, 0, 1⟩]) (nodes.length :: stack) (c + 1)
        (maxDepth - 1) (fun t ht => reachFullOK_arg hok hdm ht) hstk₂ (by omega) (by omega)
      refine ⟨.node d cs, c₂, ?_, ?_⟩
      · show (if d.isTerminal = true then
            (Except.ok ((⟨nodes, stack⟩ : BuilderState).add d.value, c + 1) :
              Except GenErr (BuilderState × Nat))
          else
            match generateArgs g ent fuel d.argTypes
                ((⟨nodes, stack⟩ : BuilderState).push d.value) (c + 1)
                (maxDepth - 1) .full with
            | .ok (b₂, c₂) => .ok (b₂.pop, c₂)
            | .error err => .error err) = _
        rw [if_neg (by simp [hdterm]), push_eq, hargs]
        exact congrArg (fun r => (Except.ok (r, c₂) : Except GenErr (BuilderState × Nat)))
          ((pushArgsPop nodes stack d.value hstk (sizeF cs) (lengthF cs)
            (flattenF (tmapF GDefinition.value cs))).trans (by
              simp [flattenT, tmapT, sizeT, lengthF_tmapF, sizeF_tmapF]))
      · rw [FullShapeT, if_neg hd1]
        refine ⟨hdterm, ?_, hfsh⟩
        apply lengthF_ne_zero
        rw [hlencs]
        intro hzero
        exact hdargs (List.length_eq_zero.mp hzero)

theorem generateArgs_full (g : GGrammar) (ent : Nat → Nat) :
    ∀ fuel (ts : List (Option Nat)) (nodes : List NodeStorage) (stack : List Nat)
      (c : Nat) (maxDepth : Int),
      (∀ t ∈ ts, ReachFullOK g t) → (∀ j ∈ stack, j < nodes.length) →
      1 ≤ maxDepth → maxDepth.toNat ≤ fuel →
      ∃ (cs : RForest GDefinition) (c' : Nat),
        generateArgs g ent fuel ts ⟨nodes, stack⟩ c maxDepth .full =
          .ok (⟨bumpForN stack nodes (sizeF cs) (lengthF cs) ++
            flattenF (tmapF GDefinition.value cs), stack⟩, c') ∧
        FullShapeF maxDepth cs ∧ lengthF cs = ts.length
  | fuel, [], nodes, stack, c, maxDepth, hok, hstk, h1, h2 => by
    refine ⟨.nil, c, ?_, trivial, rfl⟩
    rw [generateArgs]
    simp [bumpForN_zero, tmapF, flattenF, sizeF, lengthF]
  | fuel, t :: ts, nodes, stack, c, maxDepth, hok, hstk, h1, h2 => by
    obtain ⟨rt, c₁, hg, hsh⟩ := generate_full g ent fuel nodes stack c maxDepth t
      (hok t (List.mem_cons_self t ts)) hstk h1 h2
    have hstk₁ : ∀ j ∈ stack,
        j < (bumpFor stack nodes (sizeT rt) ++
          flattenT (tmapT GDefinition.value rt)).length := by
      intro j hj
      have := hstk j hj
      rw [List.length_append, bumpFor_length]
      omega
    obtain ⟨cs', c₂, hargs, hfsh', hlen'⟩ := generateArgs_full g ent fuel ts
      (bumpFor stack nodes (sizeT rt) ++ flattenT (tmapT GDefinition.value rt)) stack
      c₁ maxDepth (fun u hu => hok u (List.mem_cons_of_mem t hu)) hstk₁ h1 h2
    refine ⟨.cons rt cs', c₂, ?_, ⟨hsh, hfsh'⟩, by simp [lengthF, hlen']⟩
    rw [generateArgs, hg]
    have hrec : (⟨bumpForN stack (bumpFor stack nodes (sizeT rt) ++
          flattenT (tmapT GDefinition.value rt)) (sizeF cs') (lengthF cs') ++
          flattenF (tmapF GDefinition.value cs'), stack⟩ : BuilderState) =
        ⟨bumpForN stack nodes (sizeF (RForest.cons rt cs'))
          (lengthF (RForest.cons rt cs')) ++
          flattenF (tmapF GDefinition.value (RForest.cons rt cs')), stack⟩ := by
      rw [bump_compose nodes stack hstk]
      rfl
    rw [hrec] at hargs
    exact hargs

end

/-- C4: with every reachable definition set well formed and holding at
least one terminal and one function, `generateFull` from an empty builder
emits a well-formed tree in which every internal node is a function
definition and every leaf is a terminal sitting at depth exactly
`maxDepth` (the root counting as depth 1). -/
theorem claim_C4 (g : GGrammar) (ent : Nat → Nat) (ty : Option Nat) (maxDepth : Int)
    (hok : ReachFullOK g ty) (h1 : 1 ≤ maxDepth) :
    ∃ (rt : RTree GDefinition) (c' : Nat),
      generate g ent maxDepth.toNat ⟨[], []⟩ 0 maxDepth .full ty =
        .ok (⟨flattenT (tmapT GDefinition.value rt), []⟩, c') ∧
      ∀ x ∈ nodesWithDepth 1 rt,
        (x.2.2 = true → x.1.isTerminal = true ∧ (x.2.1 : Int) = maxDepth) ∧
        (x.2.2 = false → x.1.isTerminal = false) := by
  obtain ⟨rt, c', heq, hsh⟩ := generate_full g ent maxDepth.toNat [] [] 0 maxDepth ty
    hok (by simp) h1 (Nat.le_refl _)
  refine ⟨rt, c', ?_, ?_⟩
  · simpa [bumpFor] using heq
  · intro x hx
    obtain ⟨ha, hb⟩ := fullShape_nodes rt maxDepth 1 h1 hsh x hx
    refine ⟨fun ht => ⟨(ha ht).1, ?_⟩, hb⟩
    have := (ha ht).2
    push_cast at this ⊢
    omega

/-- Grammar for the C4 witness: one terminal and one unary function. -/
def c4gram : GGrammar := ⟨fun _ => ⟨[⟨0, true, []⟩], [⟨1, false, [some 0]⟩]⟩⟩

theorem c4gramOK : ReachFullOK c4gram (some 0) := fun _ _ => by
  show DefSetWF ⟨[⟨0, true, []⟩], [⟨1, false, [some 0]⟩]⟩ ∧
    ([⟨0, true, []⟩] : List GDefinition) ≠ [] ∧
    ([⟨1, false, [some 0]⟩] : List GDefinition) ≠ []
  refine ⟨⟨?_, ?_⟩, ?_, ?_⟩ <;> decide

theorem claim_C4_witness :
    ReachFullOK c4gram (some 0) ∧ (1 : Int) ≤ 2 ∧
    ∃ (rt : RTree GDefinition) (c' : Nat),
      generate c4gram (fun _ => 0) (2 : Int).toNat ⟨[], []⟩ 0 2 .full (some 0) =
        .ok (⟨flattenT (tmapT GDefinition.value rt), []⟩, c') ∧
      ∀ x ∈ nodesWithDepth 1 rt,
        (x.2.2 = true → x.1.isTerminal = true ∧ (x.2.1 : Int) = 2) ∧
        (x.2.2 = false → x.1.isTerminal = false) :=
  ⟨c4gramOK, by norm_num, claim_C4 c4gram (fun _ => 0) (some 0) 2 c4gramOK (by norm_num)⟩

end GP

